import Mathlib

/-!
Verification of the CSV bulk-import reconciliation engine of
`express-appwrite-cms` (`src/app/dev/migrate/page.tsx` and
`src/lib/categories.ts`).

The TypeScript source is shallowly embedded: JavaScript strings become
`String`, `Map` becomes an insertion-ordered association list whose
`set` overwrites in place, `null`/`undefined` optional fields become
`Option`, and the async batched execution engine becomes a pure state
fold that also records its progress callbacks and sleep requests as
traces.  JavaScript's `trim`, `toLowerCase` and the regexes inside
`slugify` are modelled character-by-character over `List Char`
(whitespace is modelled by `Char.isWhitespace`, covering the space,
tab, CR and LF characters relevant to the data handled here).
-/

set_option maxHeartbeats 1000000

/-! ## Character and string helpers (models of the JS string operations) -/

/-- Model of JavaScript `String.prototype.trim` on a character list:
drop whitespace from both ends. -/
def trimChars (cs : List Char) : List Char :=
  ((cs.dropWhile Char.isWhitespace).reverse.dropWhile Char.isWhitespace).reverse

/-- Model of JavaScript `value.trim()`. -/
def jsTrim (s : String) : String :=
  String.mk (trimChars s.data)

/-- Model of JavaScript `value.toLowerCase()` (character-wise lowering). -/
def lowerStr (s : String) : String :=
  String.mk (s.data.map Char.toLower)

/-- Whether `pat` starts the list `cs`. -/
def startsWithChars : List Char → List Char → Bool
  | [], _ => true
  | _ :: _, [] => false
  | p :: ps, c :: cs => p = c && startsWithChars ps cs

/-- Whether `pat` occurs as a contiguous run inside `cs`. -/
def hasRunChars (pat : List Char) : List Char → Bool
  | [] => pat.isEmpty
  | c :: cs => startsWithChars pat (c :: cs) || hasRunChars pat cs

/-- Model of JavaScript `hay.includes(needle)`. -/
def strContainsSub (hay needle : String) : Bool :=
  hasRunChars needle.data hay.data

/-- Join a list of strings with a separator, the model of JavaScript
`Array.prototype.join`. -/
def joinStr (sep : String) : List String → String
  | [] => ""
  | [s] => s
  | s :: rest => s ++ sep ++ joinStr sep rest

/-! ## Insertion-ordered association lists (model of JS `Map`) -/

/-- Model of `Map.prototype.get`. -/
def assocGet {α : Type} : List (String × α) → String → Option α
  | [], _ => none
  | (k', v) :: rest, k => if k' = k then some v else assocGet rest k

/-- Model of `Map.prototype.set`: overwrite in place when the key is
present, append otherwise (preserving insertion order of keys). -/
def assocSet {α : Type} : List (String × α) → String → α → List (String × α)
  | [], k, v => [(k, v)]
  | (k', v') :: rest, k, v =>
    if k' = k then (k, v) :: rest else (k', v') :: assocSet rest k v

theorem assocSet_of_get_none {α : Type} (m : List (String × α)) (k : String) (v : α)
    (h : assocGet m k = none) : assocSet m k v = m ++ [(k, v)] := by
  induction m with
  | nil => rfl
  | cons p rest ih =>
    obtain ⟨k', v'⟩ := p
    by_cases hk : k' = k
    · simp [assocGet, hk] at h
    · simp [assocGet, hk] at h
      simp [assocSet, hk, ih h]

theorem assocGet_append_right {α : Type} (m₁ m₂ : List (String × α)) (k : String)
    (h : assocGet m₁ k = none) : assocGet (m₁ ++ m₂) k = assocGet m₂ k := by
  induction m₁ with
  | nil => rfl
  | cons p rest ih =>
    obtain ⟨k', v'⟩ := p
    by_cases hk : k' = k
    · simp [assocGet, hk] at h
    · simp [assocGet, hk] at h ⊢
      exact ih h

theorem assocGet_append_left {α : Type} (m₁ m₂ : List (String × α)) (k : String) (v : α)
    (h : assocGet m₁ k = some v) : assocGet (m₁ ++ m₂) k = some v := by
  induction m₁ with
  | nil => simp [assocGet] at h
  | cons p rest ih =>
    obtain ⟨k', v'⟩ := p
    by_cases hk : k' = k
    · simp [assocGet, hk] at h ⊢
      exact h
    · simp [assocGet, hk] at h ⊢
      exact ih h

/-! ## slugify and category-path helpers (from `page.tsx`) -/

/-- Characters kept by the first `slugify` regex (`[^\w\s-]` removes the
rest): word characters, whitespace, and the hyphen. -/
def slugKeep (c : Char) : Bool :=
  c.isAlphanum || c = '_' || c.isWhitespace || c = '-'

/-- Characters collapsed into a single hyphen by the second `slugify`
regex `[\s_-]+`. -/
def slugSep (c : Char) : Bool :=
  c.isWhitespace || c = '_' || c = '-'

/-- Worker for `squashSeps`: the flag records whether the previous
character was part of a separator run already replaced by a hyphen. -/
def squashSepsGo : Bool → List Char → List Char
  | _, [] => []
  | inRun, c :: cs =>
    if slugSep c then
      if inRun then squashSepsGo true cs else '-' :: squashSepsGo true cs
    else c :: squashSepsGo false cs

/-- Replace every maximal run of `slugSep` characters with one hyphen
(model of `.replace(/[\s_-]+/g, '-')`). -/
def squashSeps (cs : List Char) : List Char :=
  squashSepsGo false cs

/-- Strip leading and trailing hyphens (model of
`.replace(/^-+|-+$/g, '')`). -/
def stripHyphens (cs : List Char) : List Char :=
  ((cs.dropWhile (· = '-')).reverse.dropWhile (· = '-')).reverse

/-- Model of the `slugify` helper: lower-case, trim, remove characters
outside `[\w\s-]`, collapse `[\s_-]+` runs to `-`, strip edge hyphens. -/
def slugify (value : String) : String :=
  String.mk
    (stripHyphens (squashSeps (trimChars (value.data.map Char.toLower) |>.filter slugKeep)))

/-- Model of `normalizeCategorySegment` (an alias of `slugify`). -/
def normalizeCategorySegment (value : String) : String := slugify value

/-- Split a character list at every occurrence of `sep`, the model of
JavaScript `String.prototype.split` with a one-character separator
(so the empty input yields one empty piece, and adjacent separators
yield empty pieces). -/
def splitChar (sep : Char) : List Char → List (List Char)
  | [] => [[]]
  | c :: cs =>
    let rest := splitChar sep cs
    if c = sep then [] :: rest
    else
      match rest with
      | r :: rs => (c :: r) :: rs
      | [] => [[c]]

/-- Model of `parseCategorySegments`: split the raw category string on
the `>` delimiter, trim each segment and drop the empty ones. -/
def parseCategorySegments (rawValue : String) : List String :=
  ((splitChar '>' rawValue.data).map (fun cs => jsTrim (String.mk cs))).filter
    (fun s => s.length > 0)

/-- Model of `buildCategoryPathKey`: slugify each segment and join the
results with `>`. -/
def buildCategoryPathKey (segments : List String) : String :=
  joinStr ">" (segments.map normalizeCategorySegment)

/-- Model of `formatCategoryPath` from `lib/categories.ts`:
`path.join(' > ')`. -/
def formatCategoryPath (path : List String) : String :=
  joinStr " > " path

theorem formatCategoryPath_sample : formatCategoryPath ["a", "b"] = "a > b" := rfl
theorem slugify_sample : slugify "Hardware  Handles!" = "hardware-handles" := rfl
theorem parseCategorySegments_sample : parseCategorySegments " A > B >> " = ["A", "B"] := rfl
theorem buildCategoryPathKey_sample : buildCategoryPathKey ["Hardware", "Cabinet Handles"] = "hardware>cabinet-handles" := rfl

/-! ## Categories (`lib/categories.ts`) -/

/-- Model of the stored `Category` document.  A missing/empty slug is
modelled by the empty string, matching the truthiness checks
(`if (category.slug)`) in the source. -/
structure Category where
  id : String
  name : String
  slug : String
  parentId : Option String
  sortOrder : Int
deriving DecidableEq, Repr

/-- Model of `buildCategoryMap`: a JS `Map` from `$id` to the category
(last write wins on duplicate ids). -/
def buildCategoryMap (categories : List Category) : List (String × Category) :=
  categories.foldl (fun m c => assocSet m c.id c) []

/-- Fuelled model of the shared `while` loop of `getCategoryPath` and
`getCategoryAncestry`: follow `parentId` pointers, stopping on a
revisited id (cycle guard) or an id absent from the lookup map.  The
projection `f` selects what each step records (`name` for the path,
`$id` for the ancestry).  The wrappers call it with fuel
`lookup.length + 1`, which `categoryWalkGo_fuel_irrelevant` below shows
is enough for the fuel never to run out. -/
def categoryWalkGo (f : Category → String) (lookup : List (String × Category)) :
    Nat → Option String → List String → List String
  | 0, _, _ => []
  | fuel + 1, cur, visited =>
    match cur with
    | none => []
    | some cid =>
      if visited.contains cid then []
      else
        match assocGet lookup cid with
        | none => []
        | some cat => f cat :: categoryWalkGo f lookup fuel cat.parentId (visited ++ [cid])

/-- Model of `getCategoryPath`: collect names root-ward, then reverse. -/
def getCategoryPath (categoryId : String) (lookup : List (String × Category)) : List String :=
  (categoryWalkGo (fun c => c.name) lookup (lookup.length + 1) (some categoryId) []).reverse

/-- Model of `getCategoryAncestry`: collect ids root-ward, then reverse. -/
def getCategoryAncestry (categoryId : String) (lookup : List (String × Category)) : List String :=
  (categoryWalkGo (fun c => c.id) lookup (lookup.length + 1) (some categoryId) []).reverse

/-- The keys of a lookup map that the walk may still visit. -/
def unvisitedKeys (lookup : List (String × Category)) (visited : List String) : Nat :=
  ((lookup.map Prod.fst).filter (fun k => !visited.contains k)).length

theorem assocGet_mem_keys {α : Type} (m : List (String × α)) (k : String) (v : α)
    (h : assocGet m k = some v) : k ∈ m.map Prod.fst := by
  induction m with
  | nil => simp [assocGet] at h
  | cons p rest ih =>
    obtain ⟨k', v'⟩ := p
    by_cases hk : k' = k
    · simp [hk]
    · simp [assocGet, hk] at h
      simp [ih h]

theorem length_filter_lt_of_imp {α : Type} (P Q : α → Bool)
    (himp : ∀ k, Q k = true → P k = true) :
    ∀ (keys : List α) (a : α), a ∈ keys → P a = true → Q a = false →
      (keys.filter Q).length < (keys.filter P).length := by
  intro keys
  induction keys with
  | nil =>
    intro a ha _ _
    simp at ha
  | cons b rest ih =>
    intro a ha hPa hQa
    have hsub : (rest.filter Q).length ≤ (rest.filter P).length :=
      (List.monotone_filter_right rest himp).length_le
    rcases List.mem_cons.mp ha with hb | hb
    · subst hb
      simp [List.filter_cons, hPa, hQa]
      omega
    · rcases hQb : Q b with _ | _
      · rcases hPb : P b with _ | _
        · simp only [List.filter_cons, hQb, hPb]
          simpa using ih a hb hPa hQa
        · have := ih a hb hPa hQa
          simp [List.filter_cons, hQb, hPb]
          omega
      · have hPb := himp b hQb
        simp only [List.filter_cons, hQb, hPb]
        simpa using ih a hb hPa hQa

theorem filter_not_contains_append_lt (keys : List String) (visited : List String) (a : String)
    (ha : a ∈ keys) (hnv : visited.contains a = false) :
    (keys.filter (fun k => !(visited ++ [a]).contains k)).length
      < (keys.filter (fun k => !visited.contains k)).length := by
  apply length_filter_lt_of_imp (fun k => !visited.contains k)
    (fun k => !(visited ++ [a]).contains k)
  · intro k hk
    simp only [Bool.not_eq_true'] at hk ⊢
    simp only [List.contains, List.elem_eq_mem, decide_eq_false_iff_not, List.mem_append,
      List.mem_singleton] at hk ⊢
    intro hmem
    exact hk (Or.inl hmem)
  · exact ha
  · simpa using hnv
  · simp

/-- Enough fuel makes the walk's result independent of the exact fuel:
this is the formal content of termination of the source's `while` loop,
whose visited-set guard keeps the number of remaining reachable lookup
keys strictly decreasing. -/
theorem categoryWalkGo_fuel_irrelevant (f : Category → String)
    (lookup : List (String × Category)) :
    ∀ (fuel₁ fuel₂ : Nat) (cur : Option String) (visited : List String),
      unvisitedKeys lookup visited < fuel₁ → unvisitedKeys lookup visited < fuel₂ →
      categoryWalkGo f lookup fuel₁ cur visited = categoryWalkGo f lookup fuel₂ cur visited := by
  intro fuel₁
  induction fuel₁ with
  | zero =>
    intro fuel₂ cur visited h₁ _
    omega
  | succ fuel₁' ih =>
    intro fuel₂ cur visited h₁ h₂
    match fuel₂, h₂ with
    | fuel₂' + 1, h₂ =>
      cases cur with
      | none => rfl
      | some cid =>
        by_cases hv : visited.contains cid = true
        · have hv' : cid ∈ visited := by simpa using hv
          simp [categoryWalkGo, hv']
        · cases hget : assocGet lookup cid with
          | none => simp [categoryWalkGo, hv, hget]
          | some cat =>
            have hdec : unvisitedKeys lookup (visited ++ [cid]) < unvisitedKeys lookup visited := by
              apply filter_not_contains_append_lt
              · exact assocGet_mem_keys lookup cid cat hget
              · simpa using hv
            have hrec := ih fuel₂' cat.parentId (visited ++ [cid]) (by omega) (by omega)
            simp [categoryWalkGo, hv, hget, hrec]

/-- The walk visits at most the lookup keys not yet in the visited set,
regardless of fuel. -/
theorem categoryWalkGo_length_le (f : Category → String)
    (lookup : List (String × Category)) :
    ∀ (fuel : Nat) (cur : Option String) (visited : List String),
      (categoryWalkGo f lookup fuel cur visited).length ≤ unvisitedKeys lookup visited := by
  intro fuel
  induction fuel with
  | zero =>
    intro cur visited
    simp [categoryWalkGo]
  | succ fuel' ih =>
    intro cur visited
    cases cur with
    | none => simp [categoryWalkGo]
    | some cid =>
      by_cases hv : visited.contains cid = true
      · have hv' : cid ∈ visited := by simpa using hv
        simp [categoryWalkGo, hv']
      · cases hget : assocGet lookup cid with
        | none => simp [categoryWalkGo, hv, hget]
        | some cat =>
          have hdec : unvisitedKeys lookup (visited ++ [cid]) < unvisitedKeys lookup visited := by
            apply filter_not_contains_append_lt
            · exact assocGet_mem_keys lookup cid cat hget
            · simpa using hv
          have := ih cat.parentId (visited ++ [cid])
          simp only [categoryWalkGo]
          rw [if_neg (by simpa using hv), hget]
          simp only [List.length_cons]
          omega

theorem unvisitedKeys_le_length (lookup : List (String × Category)) (visited : List String) :
    unvisitedKeys lookup visited ≤ lookup.length := by
  calc unvisitedKeys lookup visited
      ≤ (lookup.map Prod.fst).length := (List.filter_sublist _).length_le
    _ = lookup.length := by simp

theorem buildCategoryMap_length_le (categories : List Category) :
    (buildCategoryMap categories).length ≤ categories.length := by
  have hgen : ∀ (cs : List Category) (m : List (String × Category)),
      (cs.foldl (fun m c => assocSet m c.id c) m).length ≤ m.length + cs.length := by
    intro cs
    induction cs with
    | nil => simp
    | cons c rest ih =>
      intro m
      have hset : (assocSet m c.id c).length ≤ m.length + 1 := by
        clear ih
        induction m with
        | nil => simp [assocSet]
        | cons p tail ihm =>
          obtain ⟨k', v'⟩ := p
          by_cases hk : k' = c.id
          · simp [assocSet, hk]
          · simp only [assocSet, if_neg hk, List.length_cons]
            omega
      calc ((c :: rest).foldl (fun m c => assocSet m c.id c) m).length
          = (rest.foldl (fun m c => assocSet m c.id c) (assocSet m c.id c)).length := by
            simp [List.foldl_cons]
        _ ≤ (assocSet m c.id c).length + rest.length := ih _
        _ ≤ m.length + 1 + rest.length := by omega
        _ = m.length + (c :: rest).length := by simp; omega
  simpa using hgen categories []

theorem assocGet_set {α : Type} (m : List (String × α)) (k : String) (v : α) (k' : String) :
    assocGet (assocSet m k v) k' = if k = k' then some v else assocGet m k' := by
  induction m with
  | nil =>
    by_cases hk : k = k' <;> simp [assocSet, assocGet, hk]
  | cons p rest ih =>
    obtain ⟨k₀, v₀⟩ := p
    by_cases h₀ : k₀ = k
    · subst h₀
      by_cases hk : k₀ = k'
      · simp [assocSet, assocGet, hk]
      · simp [assocSet, assocGet, hk]
    · by_cases hk' : k₀ = k'
      · subst hk'
        have : ¬ k = k₀ := fun h => h₀ h.symm
        simp [assocSet, assocGet, h₀, this]
      · simp [assocSet, assocGet, h₀, hk', ih]

theorem buildCategoryMap_id_inv (categories : List Category) :
    ∀ (k : String) (c : Category),
      assocGet (buildCategoryMap categories) k = some c → c.id = k := by
  have hgen : ∀ (cs : List Category) (m : List (String × Category)),
      (∀ k c, assocGet m k = some c → c.id = k) →
      ∀ k c, assocGet (cs.foldl (fun m c => assocSet m c.id c) m) k = some c → c.id = k := by
    intro cs
    induction cs with
    | nil => intro m hm; exact hm
    | cons c₀ rest ih =>
      intro m hm k c hget
      refine ih (assocSet m c₀.id c₀) ?_ k c hget
      intro k' c' hget'
      rw [assocGet_set] at hget'
      by_cases hk : c₀.id = k'
      · rw [if_pos hk] at hget'
        cases hget'
        exact hk
      · rw [if_neg hk] at hget'
        exact hm k' c' hget'
  intro k c
  exact hgen categories [] (by intro k' c' h; simp [assocGet] at h) k c

/-- The id-walk never revisits: every recorded id is fresh relative to
the visited set, hence the whole ancestry is duplicate-free. -/
theorem categoryWalkGo_ids_nodup (lookup : List (String × Category))
    (hinv : ∀ k c, assocGet lookup k = some c → c.id = k) :
    ∀ (fuel : Nat) (cur : Option String) (visited : List String),
      (categoryWalkGo (fun c => c.id) lookup fuel cur visited).Nodup
      ∧ ∀ x ∈ categoryWalkGo (fun c => c.id) lookup fuel cur visited, x ∉ visited := by
  intro fuel
  induction fuel with
  | zero =>
    intro cur visited
    simp [categoryWalkGo]
  | succ fuel' ih =>
    intro cur visited
    cases cur with
    | none => simp [categoryWalkGo]
    | some cid =>
      by_cases hv : visited.contains cid = true
      · have hv' : cid ∈ visited := by simpa using hv
        simp [categoryWalkGo, hv']
      · cases hget : assocGet lookup cid with
        | none => simp [categoryWalkGo, hv, hget]
        | some cat =>
          have hid : cat.id = cid := hinv cid cat hget
          have hrec := ih cat.parentId (visited ++ [cid])
          have hnv : cid ∉ visited := fun hmem => hv (by simpa using hmem)
          have hstep : categoryWalkGo (fun c => c.id) lookup (fuel' + 1) (some cid) visited
              = cat.id :: categoryWalkGo (fun c => c.id) lookup fuel' cat.parentId
                  (visited ++ [cid]) := by
            simp [categoryWalkGo, hnv, hget]
          rw [hstep]
          constructor
          · refine List.nodup_cons.mpr ⟨?_, hrec.1⟩
            intro hmem
            have := hrec.2 cat.id hmem
            simp [hid] at this
          · intro x hx
            rcases List.mem_cons.mp hx with hx | hx
            · subst hx
              rw [hid]
              exact fun hmem => hv (by simpa using hmem)
            · intro hxv
              exact hrec.2 x hx (by simp [hxv])

/-- C9: for every category list (including ones whose `parentId`
pointers form a cycle or dangle) and every starting id,
`getCategoryPath` and `getCategoryAncestry` terminate and return a
finite path; the walk treats a revisited id or an id absent from the
lookup map as the end of the chain.  Termination is expressed by fuel
insensitivity: any fuel beyond the lookup size yields the same result
as the canonical run, the returned lists never exceed the category
count, and the ancestry never repeats an id. -/
theorem getCategoryPath_getCategoryAncestry_terminate
    (categories : List Category) (categoryId : String) :
    (getCategoryPath categoryId (buildCategoryMap categories)).length ≤ categories.length
    ∧ (getCategoryAncestry categoryId (buildCategoryMap categories)).length ≤ categories.length
    ∧ (getCategoryAncestry categoryId (buildCategoryMap categories)).Nodup
    ∧ (∀ fuel, (buildCategoryMap categories).length < fuel →
        (categoryWalkGo (fun c => c.name) (buildCategoryMap categories) fuel (some categoryId)
            []).reverse = getCategoryPath categoryId (buildCategoryMap categories)
        ∧ (categoryWalkGo (fun c => c.id) (buildCategoryMap categories) fuel (some categoryId)
            []).reverse = getCategoryAncestry categoryId (buildCategoryMap categories))
    ∧ (∀ (f : Category → String) (fuel : Nat) (cid : String) (visited : List String),
        cid ∈ visited →
        categoryWalkGo f (buildCategoryMap categories) (fuel + 1) (some cid) visited = [])
    ∧ (∀ (f : Category → String) (fuel : Nat) (cid : String) (visited : List String),
        assocGet (buildCategoryMap categories) cid = none →
        categoryWalkGo f (buildCategoryMap categories) (fuel + 1) (some cid) visited = []) := by
  set lookup := buildCategoryMap categories with hlookup
  have hbound : ∀ (f : Category → String) (cur : Option String),
      (categoryWalkGo f lookup (lookup.length + 1) cur []).length ≤ categories.length := by
    intro f cur
    calc (categoryWalkGo f lookup (lookup.length + 1) cur []).length
        ≤ unvisitedKeys lookup [] := categoryWalkGo_length_le f lookup _ cur []
      _ ≤ lookup.length := unvisitedKeys_le_length lookup []
      _ ≤ categories.length := buildCategoryMap_length_le categories
  refine ⟨?_, ?_, ?_, ?_, ?_, ?_⟩
  · simpa [getCategoryPath] using hbound (fun c => c.name) (some categoryId)
  · simpa [getCategoryAncestry] using hbound (fun c => c.id) (some categoryId)
  · rw [getCategoryAncestry, List.nodup_reverse]
    exact (categoryWalkGo_ids_nodup lookup (buildCategoryMap_id_inv categories)
      (lookup.length + 1) (some categoryId) []).1
  · intro fuel hfuel
    have hlt : unvisitedKeys lookup [] < fuel :=
      Nat.lt_of_le_of_lt (unvisitedKeys_le_length lookup []) hfuel
    have hlt' : unvisitedKeys lookup [] < lookup.length + 1 :=
      Nat.lt_succ_of_le (unvisitedKeys_le_length lookup [])
    constructor
    · rw [getCategoryPath,
        categoryWalkGo_fuel_irrelevant (fun c => c.name) lookup fuel (lookup.length + 1)
          (some categoryId) [] hlt hlt']
    · rw [getCategoryAncestry,
        categoryWalkGo_fuel_irrelevant (fun c => c.id) lookup fuel (lookup.length + 1)
          (some categoryId) [] hlt hlt']
  · intro f fuel cid visited hmem
    simp [categoryWalkGo, hmem]
  · intro f fuel cid visited hget
    by_cases hv : cid ∈ visited
    · simp [categoryWalkGo, hv]
    · simp [categoryWalkGo, hv, hget]

/-- Witness for the termination theorem on a concrete two-node cycle
(`a.parentId = b`, `b.parentId = a`): the walk ends after visiting each
id once, and extra fuel does not change the answer. -/
theorem getCategoryPath_getCategoryAncestry_terminate_witness :
    ((buildCategoryMap
        [{ id := "a", name := "A", slug := "a", parentId := some "b", sortOrder := 0 },
         { id := "b", name := "B", slug := "b", parentId := some "a", sortOrder := 0 }]).length < 7)
    ∧ (categoryWalkGo (fun c => c.name)
        (buildCategoryMap
          [{ id := "a", name := "A", slug := "a", parentId := some "b", sortOrder := 0 },
           { id := "b", name := "B", slug := "b", parentId := some "a", sortOrder := 0 }]) 7
        (some "a") []).reverse
      = getCategoryPath "a"
          (buildCategoryMap
            [{ id := "a", name := "A", slug := "a", parentId := some "b", sortOrder := 0 },
             { id := "b", name := "B", slug := "b", parentId := some "a", sortOrder := 0 }])
    ∧ getCategoryPath "a"
        (buildCategoryMap
          [{ id := "a", name := "A", slug := "a", parentId := some "b", sortOrder := 0 },
           { id := "b", name := "B", slug := "b", parentId := some "a", sortOrder := 0 }])
      = ["B", "A"] :=
  ⟨by decide,
   ((getCategoryPath_getCategoryAncestry_terminate
      [{ id := "a", name := "A", slug := "a", parentId := some "b", sortOrder := 0 },
       { id := "b", name := "B", slug := "b", parentId := some "a", sortOrder := 0 }]
      "a").2.2.2.1 7 (by decide)).1,
   by decide⟩

/-! ## Error extraction and the batched execution engine (`page.tsx`) -/

/-- Model of the dynamically shape-probed error objects reaching
`extractErrorDetails`: the numeric fields probed by the `??` chain and
the optional message and type strings (all failure shapes handled by
the source collapse to this record). -/
structure JsError where
  code : Option Int := none
  status : Option Int := none
  statusCode : Option Int := none
  responseStatus : Option Int := none
  responseStatusCode : Option Int := none
  message : Option String := none
  errorType : Option String := none
deriving DecidableEq, Repr

/-- The `{code, message, errorType}` record produced by
`extractErrorDetails`. -/
structure ErrorDetails where
  code : Option Int
  message : Option String
  errorType : Option String
deriving DecidableEq, Repr

/-- Model of `extractErrorDetails`: the status code is the first defined
entry of the `code ?? status ?? statusCode ?? response.status ??
response.statusCode` chain. -/
def extractErrorDetails (e : JsError) : ErrorDetails :=
  { code := (((e.code.or e.status).or e.statusCode).or e.responseStatus).or e.responseStatusCode
    message := e.message
    errorType := e.errorType }

/-- The HTTP-like status codes the source treats as retryable. -/
def retryableStatusCodes : List Int := [408, 425, 429, 500, 502, 503, 504]

/-- The lowered message fragments the source treats as retryable. -/
def retryableMessageParts : List String :=
  ["429", "too many requests", "rate limit", "timeout", "network error", "failed to fetch"]

/-- Model of `defaultShouldRetry`: a truthy extracted code in the
retryable list, or a message containing one of the retryable
fragments (after lowering). -/
def defaultShouldRetry (e : JsError) : Bool :=
  let d := extractErrorDetails e
  (match d.code with
   | some c => !(c = 0) && retryableStatusCodes.contains c
   | none => false)
  || (match d.message with
      | some m => retryableMessageParts.any (fun part => strContainsSub (lowerStr m) part)
      | none => false)

/-- Model of the `RateLimitOptions` record (the retry predicate and the
progress callback are modelled separately: the predicate is a
parameter of the engine, the callbacks are returned as a trace). -/
structure RateLimitOptions where
  batchSize : Nat
  batchDelayMs : Nat
  parallel : Nat
  perItemDelayMs : Nat
  maxRetries : Nat
  retryInitialDelayMs : Nat
  retryBackoffMultiplier : Nat
deriving DecidableEq, Repr

/-- Model of a `ProcessFailure` record pushed by `executeItem`. -/
structure ProcessFailure (T : Type) where
  index : Nat
  item : T
  error : JsError
  attempts : Nat
  code : Option Int
  message : Option String
  errorType : Option String
deriving DecidableEq, Repr

/-- Engine state: the failure list, the `completed` counter, the
`onProgress` invocations in order, and the requested sleep durations in
order (retry backoff, per-item pacing and batch delays). -/
structure EngineState (T : Type) where
  failures : List (ProcessFailure T)
  completed : Nat
  progress : List (Nat × Nat)
  sleeps : List Nat
deriving DecidableEq, Repr

/-- The initial engine state. -/
def initES (T : Type) : EngineState T :=
  { failures := [], completed := 0, progress := [], sleeps := [] }

/-- Fuelled model of the `while (true)` retry loop inside `executeItem`.
The handler is modelled as a function from the attempt number (1-based)
to `none` (success) or `some e` (throw).  The result is the final
`(attempts, error?)` pair together with the backoff sleeps requested.
The wrapper `attemptLoop` supplies fuel `maxRetries + 1 - attempts`,
which never runs out because a retry requires `attempts + 1 ≤
maxRetries`. -/
def attemptLoopGo (cfg : RateLimitOptions) (handler : Nat → Option JsError)
    (retryOK : JsError → Bool) : Nat → Nat → (Nat × Option JsError) × List Nat
  | 0, attempts =>
    match handler (attempts + 1) with
    | none => ((attempts + 1, none), [])
    | some e => ((attempts + 1, some e), [])
  | fuel + 1, attempts =>
    match handler (attempts + 1) with
    | none => ((attempts + 1, none), [])
    | some e =>
      if attempts + 1 ≤ cfg.maxRetries ∧ retryOK e = true then
        let rest := attemptLoopGo cfg handler retryOK fuel (attempts + 1)
        (rest.1, cfg.retryInitialDelayMs * cfg.retryBackoffMultiplier ^ attempts :: rest.2)
      else ((attempts + 1, some e), [])

/-- The retry loop entered with `attempts` prior attempts. -/
def attemptLoop (cfg : RateLimitOptions) (handler : Nat → Option JsError)
    (retryOK : JsError → Bool) (attempts : Nat) : (Nat × Option JsError) × List Nat :=
  attemptLoopGo cfg handler retryOK (cfg.maxRetries + 1 - attempts) attempts

/-- The terminal outcome of one item, as a `ProcessFailure` when the
retry loop gives up (`none` on eventual success). -/
def itemFailure {T : Type} (cfg : RateLimitOptions) (sr : JsError → T → Bool)
    (handler : T → Nat → Nat → Option JsError) (item : T) (index : Nat) :
    Option (ProcessFailure T) :=
  match (attemptLoop cfg (handler item index) (fun e => sr e item) 0).1 with
  | (n, some e) =>
    some { index := index, item := item, error := e, attempts := n,
           code := (extractErrorDetails e).code,
           message := (extractErrorDetails e).message,
           errorType := (extractErrorDetails e).errorType }
  | (_, none) => none

/-- Model of `executeItem`: run the retry loop, record a permanent
failure if it gave up, bump `completed`, report progress, and request
the per-item pacing delay. -/
def executeItem {T : Type} (cfg : RateLimitOptions) (sr : JsError → T → Bool)
    (handler : T → Nat → Nat → Option JsError) (total : Nat) (item : T) (index : Nat)
    (st : EngineState T) : EngineState T :=
  let r := attemptLoop cfg (handler item index) (fun e => sr e item) 0
  let st1 : EngineState T := { st with sleeps := st.sleeps ++ r.2 }
  let st2 : EngineState T :=
    match r.1 with
    | (n, some e) =>
      { st1 with failures := st1.failures ++
          [{ index := index, item := item, error := e, attempts := n,
             code := (extractErrorDetails e).code,
             message := (extractErrorDetails e).message,
             errorType := (extractErrorDetails e).errorType }] }
    | (_, none) => st1
  let st3 : EngineState T :=
    { st2 with
      completed := st2.completed + 1
      progress := st2.progress ++ [(st2.completed + 1, total)] }
  if 0 < cfg.perItemDelayMs then { st3 with sleeps := st3.sleeps ++ [cfg.perItemDelayMs] }
  else st3

/-- Sequential processing of one batch: with `parallel = 1` (the only
configuration the page uses) the source's worker pool degenerates to
this in-order traversal; with more workers the pool still claims
indices in increasing order, and only the interleaving of sleeps and
completion order can differ. -/
def runSeq {T : Type} (cfg : RateLimitOptions) (sr : JsError → T → Bool)
    (handler : T → Nat → Nat → Option JsError) (total : Nat) :
    List T → Nat → EngineState T → EngineState T
  | [], _, st => st
  | item :: rest, idx, st =>
    runSeq cfg sr handler total rest (idx + 1) (executeItem cfg sr handler total item idx st)

/-- Fuelled model of the `for (offset ...; offset += batchSize)` loop of
`processWithRateLimit`: slice the next batch, process it, and request
the inter-batch delay unless the batch was the last.  The wrapper
supplies fuel `items.length`, enough whenever `batchSize > 0` (for
`batchSize = 0` the source loops forever; the model stops when the
fuel runs out). -/
def batchLoopGo {T : Type} (cfg : RateLimitOptions) (sr : JsError → T → Bool)
    (handler : T → Nat → Nat → Option JsError) (items : List T) :
    Nat → Nat → EngineState T → EngineState T
  | 0, _, st => st
  | fuel + 1, offset, st =>
    if offset < items.length ∧ 0 < cfg.batchSize then
      let batchItems := (items.drop offset).take cfg.batchSize
      let st1 := runSeq cfg sr handler items.length batchItems offset st
      let st2 := if offset + batchItems.length < items.length ∧ 0 < cfg.batchDelayMs
                 then { st1 with sleeps := st1.sleeps ++ [cfg.batchDelayMs] } else st1
      batchLoopGo cfg sr handler items fuel (offset + cfg.batchSize) st2
    else st

/-- Model of `processWithRateLimit` (with the default retry predicate
passed explicitly as `sr`).  Returns the final engine state; the
source returns its `failures` component. -/
def processWithRateLimit {T : Type} (cfg : RateLimitOptions) (sr : JsError → T → Bool)
    (handler : T → Nat → Nat → Option JsError) (items : List T) : EngineState T :=
  if items.length = 0 then initES T
  else batchLoopGo cfg sr handler items items.length 0 (initES T)

/-- The progress-callback trace produced while completing `n` further
items starting from `c` completed ones, out of `total`. -/
def progressCalls (c total : Nat) : Nat → List (Nat × Nat)
  | 0 => []
  | n + 1 => (c + 1, total) :: progressCalls (c + 1) total n

theorem progressCalls_append (total : Nat) :
    ∀ (m n c : Nat), progressCalls c total (m + n)
      = progressCalls c total m ++ progressCalls (c + m) total n := by
  intro m
  induction m with
  | zero => intro n c; simp [progressCalls]
  | succ m' ih =>
    intro n c
    have : m' + 1 + n = (m' + n) + 1 := by omega
    rw [this]
    simp only [progressCalls, ih n (c + 1), List.cons_append]
    have : c + 1 + m' = c + (m' + 1) := by omega
    rw [this]

theorem progressCalls_snoc (total : Nat) (n c : Nat) :
    progressCalls c total (n + 1) = progressCalls c total n ++ [(c + n + 1, total)] := by
  rw [progressCalls_append total n 1 c]
  simp [progressCalls]

theorem progressCalls_getLast (total : Nat) (n c : Nat) (h : 0 < n) :
    (progressCalls c total n).getLast? = some (c + n, total) := by
  obtain ⟨m, rfl⟩ : ∃ m, n = m + 1 := ⟨n - 1, by omega⟩
  rw [progressCalls_snoc total m c, List.getLast?_concat]
  have : c + m + 1 = c + (m + 1) := by omega
  rw [this]

/-- The failures that sequential processing of `batch`, whose first
item has index `idx`, appends to the failure list. -/
def seqFailures {T : Type} (cfg : RateLimitOptions) (sr : JsError → T → Bool)
    (handler : T → Nat → Nat → Option JsError) : List T → Nat → List (ProcessFailure T)
  | [], _ => []
  | item :: rest, idx =>
    (itemFailure cfg sr handler item idx).toList ++ seqFailures cfg sr handler rest (idx + 1)

theorem seqFailures_append {T : Type} (cfg : RateLimitOptions) (sr : JsError → T → Bool)
    (handler : T → Nat → Nat → Option JsError) :
    ∀ (l₁ l₂ : List T) (idx : Nat),
      seqFailures cfg sr handler (l₁ ++ l₂) idx
        = seqFailures cfg sr handler l₁ idx ++ seqFailures cfg sr handler l₂ (idx + l₁.length) := by
  intro l₁
  induction l₁ with
  | nil => intro l₂ idx; simp [seqFailures]
  | cons x xs ih =>
    intro l₂ idx
    simp only [List.cons_append, seqFailures, List.length_cons, List.append_eq]
    rw [ih l₂ (idx + 1)]
    rw [show idx + 1 + xs.length = idx + (xs.length + 1) from by omega]
    rw [List.append_assoc]

theorem executeItem_spec {T : Type} (cfg : RateLimitOptions) (sr : JsError → T → Bool)
    (handler : T → Nat → Nat → Option JsError) (total : Nat) (item : T) (index : Nat)
    (st : EngineState T) :
    (executeItem cfg sr handler total item index st).failures
        = st.failures ++ (itemFailure cfg sr handler item index).toList
    ∧ (executeItem cfg sr handler total item index st).completed = st.completed + 1
    ∧ (executeItem cfg sr handler total item index st).progress
        = st.progress ++ [(st.completed + 1, total)] := by
  unfold executeItem itemFailure
  rcases h : (attemptLoop cfg (handler item index) (fun e => sr e item) 0).1 with ⟨n, oe⟩
  cases oe with
  | none =>
    by_cases hd : 0 < cfg.perItemDelayMs <;> simp [h, hd]
  | some e =>
    by_cases hd : 0 < cfg.perItemDelayMs <;> simp [h, hd]

theorem runSeq_spec {T : Type} (cfg : RateLimitOptions) (sr : JsError → T → Bool)
    (handler : T → Nat → Nat → Option JsError) (total : Nat) :
    ∀ (batch : List T) (idx : Nat) (st : EngineState T),
      (runSeq cfg sr handler total batch idx st).failures
          = st.failures ++ seqFailures cfg sr handler batch idx
      ∧ (runSeq cfg sr handler total batch idx st).completed = st.completed + batch.length
      ∧ (runSeq cfg sr handler total batch idx st).progress
          = st.progress ++ progressCalls st.completed total batch.length := by
  intro batch
  induction batch with
  | nil =>
    intro idx st
    simp [runSeq, seqFailures, progressCalls]
  | cons x xs ih =>
    intro idx st
    have hx := executeItem_spec cfg sr handler total x idx st
    have hrec := ih (idx + 1) (executeItem cfg sr handler total x idx st)
    simp only [runSeq]
    refine ⟨?_, ?_, ?_⟩
    · rw [hrec.1, hx.1, seqFailures, List.append_assoc]
    · rw [hrec.2.1, hx.2.1, List.length_cons]
      omega
    · rw [hrec.2.2, hx.2.2, hx.2.1, List.length_cons]
      simp only [progressCalls, List.append_assoc, List.singleton_append]

theorem batchLoopGo_spec {T : Type} (cfg : RateLimitOptions) (sr : JsError → T → Bool)
    (handler : T → Nat → Nat → Option JsError) (items : List T) (hbs : 0 < cfg.batchSize) :
    ∀ (fuel offset : Nat) (st : EngineState T), items.length - offset ≤ fuel →
      (batchLoopGo cfg sr handler items fuel offset st).failures
          = st.failures ++ seqFailures cfg sr handler (items.drop offset) offset
      ∧ (batchLoopGo cfg sr handler items fuel offset st).completed
          = st.completed + (items.length - offset)
      ∧ (batchLoopGo cfg sr handler items fuel offset st).progress
          = st.progress ++ progressCalls st.completed items.length (items.length - offset) := by
  intro fuel
  induction fuel with
  | zero =>
    intro offset st hf
    have hoff : items.length ≤ offset := by omega
    rw [List.drop_eq_nil_of_le hoff]
    have hz : items.length - offset = 0 := by omega
    simp [batchLoopGo, seqFailures, progressCalls, hz]
  | succ fuel' ih =>
    intro offset st hf
    by_cases hlt : offset < items.length
    · have hcond : offset < items.length ∧ 0 < cfg.batchSize := ⟨hlt, hbs⟩
      simp only [batchLoopGo, if_pos hcond]
      set batchItems := (items.drop offset).take cfg.batchSize with hbatch
      set st1 := runSeq cfg sr handler items.length batchItems offset st with hst1
      set st2 := if offset + batchItems.length < items.length ∧ 0 < cfg.batchDelayMs
                 then { st1 with sleeps := st1.sleeps ++ [cfg.batchDelayMs] } else st1 with hst2
      have hst2proj : st2.failures = st1.failures ∧ st2.completed = st1.completed
          ∧ st2.progress = st1.progress := by
        rw [hst2]
        split <;> simp
      have hseq := runSeq_spec cfg sr handler items.length batchItems offset st
      have hblen : batchItems.length = min cfg.batchSize (items.length - offset) := by
        rw [hbatch, List.length_take, List.length_drop]
      have hsplit : items.drop offset = batchItems ++ items.drop (offset + cfg.batchSize) := by
        rw [hbatch]
        have h1 : items.drop (offset + cfg.batchSize)
            = (items.drop offset).drop cfg.batchSize := by
          rw [List.drop_drop]
        rw [h1, List.take_append_drop]
      have hrec := ih (offset + cfg.batchSize) st2 (by omega)
      refine ⟨?_, ?_, ?_⟩
      · rw [hrec.1, hst2proj.1, hseq.1, hsplit,
          seqFailures_append cfg sr handler batchItems (items.drop (offset + cfg.batchSize))
            offset, List.append_assoc]
        by_cases hend : offset + cfg.batchSize ≤ items.length
        · have : offset + batchItems.length = offset + cfg.batchSize := by
            rw [hblen]; omega
          rw [this]
        · have hnil : items.drop (offset + cfg.batchSize) = [] :=
            List.drop_eq_nil_of_le (by omega)
          rw [hnil]
          simp [seqFailures]
      · rw [hrec.2.1, hst2proj.2.1, hseq.2.1, hblen]
        omega
      · rw [hrec.2.2, hst2proj.2.2, hst2proj.2.1, hseq.2.2, hseq.2.1, List.append_assoc]
        have harith : items.length - offset
            = batchItems.length + (items.length - (offset + cfg.batchSize)) := by
          rw [hblen]; omega
        rw [harith, progressCalls_append items.length batchItems.length
          (items.length - (offset + cfg.batchSize)) st.completed]
    · have hz : items.length - offset = 0 := by omega
      have hcond : ¬ (offset < items.length ∧ 0 < cfg.batchSize) := by
        intro h
        exact hlt h.1
      rw [List.drop_eq_nil_of_le (by omega)]
      simp [batchLoopGo, if_neg hcond, seqFailures, progressCalls, hz]

/-- Full characterisation of the engine run: the failure list is exactly
the per-item terminal failures in index order, every item completes,
and the progress callbacks count `1, 2, …, total` out of `total`. -/
theorem processWithRateLimit_spec {T : Type} (cfg : RateLimitOptions) (sr : JsError → T → Bool)
    (handler : T → Nat → Nat → Option JsError) (items : List T) (hbs : 0 < cfg.batchSize) :
    (processWithRateLimit cfg sr handler items).failures
        = seqFailures cfg sr handler items 0
    ∧ (processWithRateLimit cfg sr handler items).completed = items.length
    ∧ (processWithRateLimit cfg sr handler items).progress
        = progressCalls 0 items.length items.length := by
  by_cases hz : items.length = 0
  · have : items = [] := List.length_eq_zero.mp hz
    subst this
    simp [processWithRateLimit, initES, seqFailures, progressCalls]
  · have h := batchLoopGo_spec cfg sr handler items hbs items.length 0 (initES T) (by omega)
    rw [processWithRateLimit, if_neg hz]
    simpa [initES] using h

theorem itemFailure_first_fail {T : Type} (cfg : RateLimitOptions) (sr : JsError → T → Bool)
    (handler : T → Nat → Nat → Option JsError) (item : T) (idx : Nat) (e : JsError)
    (h1 : handler item idx 1 = some e)
    (hnr : ¬ (1 ≤ cfg.maxRetries ∧ sr e item = true)) :
    itemFailure cfg sr handler item idx
      = some { index := idx, item := item, error := e, attempts := 1,
               code := (extractErrorDetails e).code,
               message := (extractErrorDetails e).message,
               errorType := (extractErrorDetails e).errorType } := by
  rw [itemFailure, attemptLoop]
  have hfuel : cfg.maxRetries + 1 - 0 = cfg.maxRetries + 1 := by omega
  rw [hfuel]
  simp only [attemptLoopGo, Nat.zero_add, h1]
  rw [if_neg (by simpa using hnr)]

theorem itemFailure_first_ok {T : Type} (cfg : RateLimitOptions) (sr : JsError → T → Bool)
    (handler : T → Nat → Nat → Option JsError) (item : T) (idx : Nat)
    (h1 : handler item idx 1 = none) :
    itemFailure cfg sr handler item idx = none := by
  rw [itemFailure, attemptLoop]
  have hfuel : cfg.maxRetries + 1 - 0 = cfg.maxRetries + 1 := by omega
  rw [hfuel]
  simp only [attemptLoopGo, Nat.zero_add, h1]

theorem seqFailures_everyKth {T : Type} (cfg : RateLimitOptions) (sr : JsError → T → Bool)
    (e : JsError) (hsr : ∀ t, sr e t = false) (K : Nat) :
    ∀ (l : List T) (idx : Nat),
      (seqFailures cfg sr (fun _ i _ => if (i + 1) % K = 0 then some e else none) l idx).map
          (fun f => f.index)
        = (List.range' idx l.length).filter (fun i => (i + 1) % K == 0) := by
  intro l
  induction l with
  | nil => intro idx; simp [seqFailures]
  | cons x xs ih =>
    intro idx
    rw [seqFailures, List.length_cons, List.range'_succ, List.filter_cons, List.map_append,
      ih (idx + 1)]
    by_cases hd : (idx + 1) % K = 0
    · rw [itemFailure_first_fail cfg sr _ x idx e (by simp [hd])
        (by intro h; have := hsr x; rw [this] at h; exact absurd h.2 (by simp))]
      simp [hd]
    · rw [itemFailure_first_ok cfg sr _ x idx (by simp [hd])]
      simp [hd]

theorem countEveryKth (K : Nat) (_hK : 0 < K) :
    ∀ N : Nat, ((List.range N).filter (fun i => (i + 1) % K == 0)).length = N / K := by
  intro N
  induction N with
  | zero => simp
  | succ n ih =>
    rw [List.range_succ, List.filter_append, List.length_append, ih, List.filter_cons]
    by_cases hd : (n + 1) % K = 0
    · have hdvd : K ∣ (n + 1) := Nat.dvd_iff_mod_eq_zero.mpr hd
      rw [Nat.succ_div]
      simp [hd, hdvd]
    · have hdvd : ¬ K ∣ (n + 1) := fun h => hd (Nat.dvd_iff_mod_eq_zero.mp h)
      rw [Nat.succ_div]
      simp [hd, hdvd]

/-- C1: the engine never aborts a run because one item's handler fails:
the returned failure list is exactly the per-item terminal failures (in
index order), every other item is still processed (`completed` reaches
the total), and the final `onProgress` call reports
`completed = total`.  In particular, when every `K`-th of `N` items
always throws a non-retryably, the failure list has exactly `N / K`
entries at exactly those indices. -/
theorem processWithRateLimit_never_aborts :
    (∀ {T : Type} (cfg : RateLimitOptions) (sr : JsError → T → Bool)
        (handler : T → Nat → Nat → Option JsError) (items : List T), 0 < cfg.batchSize →
      (processWithRateLimit cfg sr handler items).failures = seqFailures cfg sr handler items 0
      ∧ (processWithRateLimit cfg sr handler items).completed = items.length
      ∧ (items ≠ [] → (processWithRateLimit cfg sr handler items).progress.getLast?
          = some (items.length, items.length)))
    ∧ (∀ (cfg : RateLimitOptions) (e : JsError) (sr : JsError → Nat → Bool) (N K : Nat),
        0 < cfg.batchSize → 0 < K → (∀ t, sr e t = false) →
      (processWithRateLimit cfg sr (fun _ i _ => if (i + 1) % K = 0 then some e else none)
          (List.range N)).failures.map (fun f => f.index)
        = (List.range N).filter (fun i => (i + 1) % K == 0)
      ∧ (processWithRateLimit cfg sr (fun _ i _ => if (i + 1) % K = 0 then some e else none)
          (List.range N)).failures.length = N / K
      ∧ (0 < N → (processWithRateLimit cfg sr
            (fun _ i _ => if (i + 1) % K = 0 then some e else none)
            (List.range N)).progress.getLast? = some (N, N))) := by
  have hmain : ∀ {T : Type} (cfg : RateLimitOptions) (sr : JsError → T → Bool)
      (handler : T → Nat → Nat → Option JsError) (items : List T), 0 < cfg.batchSize →
      (processWithRateLimit cfg sr handler items).failures = seqFailures cfg sr handler items 0
      ∧ (processWithRateLimit cfg sr handler items).completed = items.length
      ∧ (items ≠ [] → (processWithRateLimit cfg sr handler items).progress.getLast?
          = some (items.length, items.length)) := by
    intro T cfg sr handler items hbs
    have h := processWithRateLimit_spec cfg sr handler items hbs
    refine ⟨h.1, h.2.1, ?_⟩
    intro hne
    rw [h.2.2]
    have hpos : 0 < items.length := List.length_pos.mpr hne
    rw [progressCalls_getLast items.length items.length 0 hpos]
    simp
  refine ⟨hmain, ?_⟩
  intro cfg e sr N K hbs hK hsr
  have h := hmain cfg sr (fun _ i _ => if (i + 1) % K = 0 then some e else none)
    (List.range N) hbs
  refine ⟨?_, ?_, ?_⟩
  · rw [h.1, seqFailures_everyKth cfg sr e hsr K (List.range N) 0, List.length_range,
      List.range_eq_range']
  · have hmap : ((processWithRateLimit cfg sr
        (fun _ i _ => if (i + 1) % K = 0 then some e else none)
        (List.range N)).failures.map (fun f => f.index)).length
        = ((List.range N).filter (fun i => (i + 1) % K == 0)).length := by
      rw [h.1, seqFailures_everyKth cfg sr e hsr K (List.range N) 0, List.length_range,
        List.range_eq_range']
    rw [List.length_map] at hmap
    rw [hmap, countEveryKth K hK N]
  · intro hN
    have hne : List.range N ≠ [] := by
      intro hc
      rw [List.range_eq_nil] at hc
      omega
    have hlast := h.2.2 hne
    rwa [List.length_range] at hlast

/-- Witness: six items, every second one failing with a non-retryable
error, under the page's own rate-limit configuration. -/
theorem processWithRateLimit_never_aborts_witness :
    (processWithRateLimit
        { batchSize := 3, batchDelayMs := 1500, parallel := 1, perItemDelayMs := 400,
          maxRetries := 5, retryInitialDelayMs := 1500, retryBackoffMultiplier := 2 }
        (fun _ _ => false)
        (fun _ i _ => if (i + 1) % 2 = 0 then some { code := some 400 } else none)
        (List.range 6)).failures.map (fun f => f.index) = [1, 3, 5]
    ∧ (processWithRateLimit
        { batchSize := 3, batchDelayMs := 1500, parallel := 1, perItemDelayMs := 400,
          maxRetries := 5, retryInitialDelayMs := 1500, retryBackoffMultiplier := 2 }
        (fun _ _ => false)
        (fun _ i _ => if (i + 1) % 2 = 0 then some { code := some 400 } else none)
        (List.range 6)).failures.length = 6 / 2
    ∧ (processWithRateLimit
        { batchSize := 3, batchDelayMs := 1500, parallel := 1, perItemDelayMs := 400,
          maxRetries := 5, retryInitialDelayMs := 1500, retryBackoffMultiplier := 2 }
        (fun _ _ => false)
        (fun _ i _ => if (i + 1) % 2 = 0 then some { code := some 400 } else none)
        (List.range 6)).progress.getLast? = some (6, 6) := by
  have h := processWithRateLimit_never_aborts.2
    { batchSize := 3, batchDelayMs := 1500, parallel := 1, perItemDelayMs := 400,
      maxRetries := 5, retryInitialDelayMs := 1500, retryBackoffMultiplier := 2 }
    { code := some 400 } (fun _ _ => false) 6 2 (by decide) (by decide) (fun t => rfl)
  refine ⟨?_, h.2.1, h.2.2 (by decide)⟩
  rw [h.1]
  decide

/-- C2: the per-item retry semantics.  (i) While the retry predicate
accepts the thrown error and the attempt count is at most `maxRetries`,
the engine sleeps `retryInitialDelayMs * retryBackoffMultiplier ^
(attempt - 1)` and retries the same item in place (the loop re-enters
with the attempt counter advanced, before any other item runs).
(ii) Otherwise the loop stops with that error and attempt count, and
(iii) `executeItem` records a permanent failure carrying the item's
index, the item, the error, the attempt count and the extracted status
code, message and error type, after which (iv) processing continues
with the next item.  (v) The default predicate accepts exactly the
retryable status codes 408/425/429/500/502/503/504 (when truthy) and
the rate-limit/timeout/network-failure message fragments. -/
theorem processWithRateLimit_retry_semantics :
    (∀ (cfg : RateLimitOptions) (hnd : Nat → Option JsError) (rOK : JsError → Bool)
        (a : Nat) (e : JsError), hnd (a + 1) = some e → a + 1 ≤ cfg.maxRetries →
        rOK e = true →
      attemptLoop cfg hnd rOK a
        = ((attemptLoop cfg hnd rOK (a + 1)).1,
           cfg.retryInitialDelayMs * cfg.retryBackoffMultiplier ^ a
             :: (attemptLoop cfg hnd rOK (a + 1)).2))
    ∧ (∀ (cfg : RateLimitOptions) (hnd : Nat → Option JsError) (rOK : JsError → Bool)
        (a : Nat) (e : JsError), hnd (a + 1) = some e →
        ¬ (a + 1 ≤ cfg.maxRetries ∧ rOK e = true) →
      attemptLoop cfg hnd rOK a = ((a + 1, some e), []))
    ∧ (∀ {T : Type} (cfg : RateLimitOptions) (sr : JsError → T → Bool)
        (handler : T → Nat → Nat → Option JsError) (total : Nat) (item : T) (idx : Nat)
        (st : EngineState T) (n : Nat) (e : JsError),
        (attemptLoop cfg (handler item idx) (fun e' => sr e' item) 0).1 = (n, some e) →
      (executeItem cfg sr handler total item idx st).failures
          = st.failures ++
            [{ index := idx, item := item, error := e, attempts := n,
               code := (extractErrorDetails e).code,
               message := (extractErrorDetails e).message,
               errorType := (extractErrorDetails e).errorType }]
      ∧ (executeItem cfg sr handler total item idx st).completed = st.completed + 1)
    ∧ (∀ {T : Type} (cfg : RateLimitOptions) (sr : JsError → T → Bool)
        (handler : T → Nat → Nat → Option JsError) (total : Nat) (item : T) (rest : List T)
        (idx : Nat) (st : EngineState T),
      runSeq cfg sr handler total (item :: rest) idx st
        = runSeq cfg sr handler total rest (idx + 1)
            (executeItem cfg sr handler total item idx st))
    ∧ (∀ e : JsError, defaultShouldRetry e = true ↔
        (∃ c, (extractErrorDetails e).code = some c ∧ c ≠ 0 ∧ c ∈ retryableStatusCodes)
        ∨ (∃ m, (extractErrorDetails e).message = some m
            ∧ ∃ p ∈ retryableMessageParts, strContainsSub (lowerStr m) p = true)) := by
  refine ⟨?_, ?_, ?_, ?_, ?_⟩
  · intro cfg hnd rOK a e he ha hr
    rw [attemptLoop, attemptLoop]
    have hfuel : cfg.maxRetries + 1 - a = (cfg.maxRetries + 1 - (a + 1)) + 1 := by omega
    rw [hfuel]
    simp only [attemptLoopGo, he]
    rw [if_pos ⟨ha, hr⟩]
  · intro cfg hnd rOK a e he hnr
    rw [attemptLoop]
    cases hfuel : cfg.maxRetries + 1 - a with
    | zero => simp only [attemptLoopGo, he]
    | succ m =>
      simp only [attemptLoopGo, he]
      rw [if_neg hnr]
  · intro T cfg sr handler total item idx st n e hres
    have hspec := executeItem_spec cfg sr handler total item idx st
    have hfail : itemFailure cfg sr handler item idx
        = some { index := idx, item := item, error := e, attempts := n,
                 code := (extractErrorDetails e).code,
                 message := (extractErrorDetails e).message,
                 errorType := (extractErrorDetails e).errorType } := by
      rw [itemFailure, hres]
    refine ⟨?_, hspec.2.1⟩
    rw [hspec.1, hfail]
    rfl
  · intro T cfg sr handler total item rest idx st
    rfl
  · intro e
    rw [defaultShouldRetry]
    simp only [Bool.or_eq_true]
    constructor
    · intro h
      rcases h with h | h
      · left
        cases hc : (extractErrorDetails e).code with
        | none => rw [hc] at h; simp at h
        | some c =>
          rw [hc] at h
          simp only [Bool.and_eq_true, Bool.not_eq_true', decide_eq_false_iff_not] at h
          refine ⟨c, rfl, ?_, ?_⟩
          · intro hzero
            have := h.1
            simp [hzero] at this
          · simpa using h.2
      · right
        cases hm : (extractErrorDetails e).message with
        | none => rw [hm] at h; simp at h
        | some m =>
          rw [hm] at h
          rw [List.any_eq_true] at h
          obtain ⟨p, hp, hcontains⟩ := h
          exact ⟨m, rfl, p, hp, hcontains⟩
    · intro h
      rcases h with ⟨c, hc, hz, hmem⟩ | ⟨m, hm, p, hp, hcontains⟩
      · left
        rw [hc]
        simp only [Bool.and_eq_true]
        constructor
        · simp [hz]
        · simpa using hmem
      · right
        rw [hm]
        rw [List.any_eq_true]
        exact ⟨p, hp, hcontains⟩

/-- Witness: under the page's configuration, an item that throws a 429
on attempt 1 (retryable) and a 400 on attempt 2 (not retryable) sleeps
`1500 * 2 ^ 0` once and ends as a permanent failure after 2 attempts. -/
theorem processWithRateLimit_retry_semantics_witness :
    attemptLoop
        { batchSize := 3, batchDelayMs := 1500, parallel := 1, perItemDelayMs := 400,
          maxRetries := 5, retryInitialDelayMs := 1500, retryBackoffMultiplier := 2 }
        (fun n => if n = 1 then some { code := some 429 } else some { code := some 400 })
        defaultShouldRetry 0
      = ((2, some { code := some 400 }), [1500]) := by
  have ha := processWithRateLimit_retry_semantics.1
    { batchSize := 3, batchDelayMs := 1500, parallel := 1, perItemDelayMs := 400,
      maxRetries := 5, retryInitialDelayMs := 1500, retryBackoffMultiplier := 2 }
    (fun n => if n = 1 then some { code := some 429 } else some { code := some 400 })
    defaultShouldRetry 0 { code := some 429 } (by decide) (by decide) (by decide)
  have hb := processWithRateLimit_retry_semantics.2.1
    { batchSize := 3, batchDelayMs := 1500, parallel := 1, perItemDelayMs := 400,
      maxRetries := 5, retryInitialDelayMs := 1500, retryBackoffMultiplier := 2 }
    (fun n => if n = 1 then some { code := some 429 } else some { code := some 400 })
    defaultShouldRetry 1 { code := some 400 } (by decide) (by decide)
  rw [ha, hb]
  decide

/-! ## CSV tokenizer (`parseCSV` line splitting and `parseCSVLine`) -/

/-- One character step of the line splitter in `parseCSV`: toggle the
quote flag on `"`, end the record on an unquoted newline (dropping
blank lines), append the character otherwise (quote characters are kept
in the line; newlines inside quotes are kept too). -/
def lineStep (st : List (List Char) × List Char × Bool) (c : Char) :
    List (List Char) × List Char × Bool :=
  let (lines, cur, inQ) := st
  let inQ2 := if c = '"' then !inQ else inQ
  if c = '\n' && !inQ2 then
    (if (trimChars cur).isEmpty then lines else lines ++ [cur], [], inQ2)
  else (lines, cur ++ [c], inQ2)

/-- The trailing `if (currentLine.trim()) lines.push(currentLine)`. -/
def finishLines (st : List (List Char) × List Char × Bool) : List (List Char) :=
  let (lines, cur, _) := st
  if (trimChars cur).isEmpty then lines else lines ++ [cur]

/-- Model of the record splitter inside `parseCSV`. -/
def splitCSVLines (text : String) : List String :=
  (finishLines (text.data.foldl lineStep ([], [], false))).map String.mk

/-- One character step of `parseCSVLine`: quotes only toggle the flag
(and are dropped), unquoted commas emit the trimmed field, everything
else is appended. -/
def fieldStep (st : List String × List Char × Bool) (c : Char) :
    List String × List Char × Bool :=
  let (res, cur, inQ) := st
  if c = '"' then (res, cur, !inQ)
  else if c = ',' && !inQ then (res ++ [String.mk (trimChars cur)], [], inQ)
  else (res, cur ++ [c], inQ)

/-- Model of `parseCSVLine`. -/
def parseCSVLine (line : String) : List String :=
  let st := line.data.foldl fieldStep ([], [], false)
  st.1 ++ [String.mk (trimChars st.2.1)]

/-- The whole tokenizer: split into records, then split each record
into trimmed fields. -/
def tokenizeCSV (text : String) : List (List String) :=
  (splitCSVLines text).map parseCSVLine

theorem parseCSVLine_sample : parseCSVLine "a, \"x, y\" ,b" = ["a", "x, y", "b"] := rfl
theorem tokenizeCSV_sample : tokenizeCSV "a,b\n\"x\ny\",z\n" = [["a", "b"], ["x\ny", "z"]] := rfl

/-! ### Trim lemmas -/

theorem dropWhile_dropWhile_same {α : Type} (p : α → Bool) (l : List α) :
    (l.dropWhile p).dropWhile p = l.dropWhile p := by
  induction l with
  | nil => rfl
  | cons c tl ih =>
    by_cases hc : p c = true
    · rw [List.dropWhile_cons, if_pos hc, ih]
    · rw [List.dropWhile_cons, if_neg hc, List.dropWhile_cons, if_neg hc]

theorem dropWhile_eq_self_head {α : Type} (p : α → Bool) (c : α) (tl : List α)
    (h : (c :: tl).dropWhile p = c :: tl) : p c = false := by
  by_cases hc : p c = true
  · rw [List.dropWhile_cons, if_pos hc] at h
    have : (tl.dropWhile p).length ≤ tl.length := (List.dropWhile_sublist p).length_le
    have hlen := congrArg List.length h
    simp at hlen
    omega
  · simpa using hc

theorem dropWhile_eq_self_of_append {α : Type} (p : α → Bool) (t v : List α)
    (h : (t ++ v).dropWhile p = t ++ v) : t.dropWhile p = t := by
  cases t with
  | nil => rfl
  | cons c t' =>
    have hc : p c = false := dropWhile_eq_self_head p c (t' ++ v) (by simpa using h)
    rw [List.dropWhile_cons, if_neg (by simp [hc])]

theorem trimChars_no_lead (cs : List Char) :
    (trimChars cs).dropWhile Char.isWhitespace = trimChars cs := by
  obtain ⟨u, hu⟩ :=
    List.dropWhile_suffix (l := (cs.dropWhile Char.isWhitespace).reverse) Char.isWhitespace
  have hdecomp : cs.dropWhile Char.isWhitespace = trimChars cs ++ u.reverse := by
    have h2 := congrArg List.reverse hu
    simp only [List.reverse_append, List.reverse_reverse] at h2
    rw [trimChars]
    exact h2.symm
  have hd := dropWhile_dropWhile_same Char.isWhitespace cs
  rw [hdecomp] at hd
  exact dropWhile_eq_self_of_append Char.isWhitespace (trimChars cs) u.reverse hd

theorem trimChars_no_trail (cs : List Char) :
    (trimChars cs).reverse.dropWhile Char.isWhitespace = (trimChars cs).reverse := by
  rw [trimChars]
  simp only [List.reverse_reverse]
  exact dropWhile_dropWhile_same _ _

theorem trimChars_idem (cs : List Char) : trimChars (trimChars cs) = trimChars cs := by
  conv_lhs => rw [trimChars]
  rw [trimChars_no_lead cs, trimChars_no_trail cs, List.reverse_reverse]

theorem mem_of_mem_trimChars {a : Char} {cs : List Char} (h : a ∈ trimChars cs) : a ∈ cs := by
  rw [trimChars] at h
  rw [List.mem_reverse] at h
  have h1 := (List.dropWhile_sublist (l := (cs.dropWhile Char.isWhitespace).reverse)
    Char.isWhitespace).subset h
  rw [List.mem_reverse] at h1
  exact (List.dropWhile_sublist (l := cs) Char.isWhitespace).subset h1

theorem mem_trimChars_of_not_ws {a : Char} {cs : List Char} (hmem : a ∈ cs)
    (hws : a.isWhitespace = false) : a ∈ trimChars cs := by
  have step : ∀ (l : List Char), a ∈ l → a ∈ l.dropWhile Char.isWhitespace := by
    intro l
    induction l with
    | nil => intro h; simp at h
    | cons c tl ih =>
      intro h
      by_cases hc : Char.isWhitespace c = true
      · rw [List.dropWhile_cons, if_pos hc]
        rcases List.mem_cons.mp h with h | h
        · subst h
          rw [hc] at hws
          simp at hws
        · exact ih h
      · rw [List.dropWhile_cons, if_neg hc]
        exact h
  rw [trimChars, List.mem_reverse]
  apply step
  rw [List.mem_reverse]
  exact step cs hmem

theorem trimChars_ne_nil_of_mem {a : Char} {cs : List Char} (hmem : a ∈ cs)
    (hws : a.isWhitespace = false) : (trimChars cs).isEmpty = false := by
  have := mem_trimChars_of_not_ws hmem hws
  cases h : trimChars cs with
  | nil => rw [h] at this; simp at this
  | cons x xs => simp

/-! ### The tokenizer's field invariant (C10) -/

/-- A field value as the tokenizer emits it: stable under a further
trim, and free of double quotes. -/
def goodField (f : String) : Prop :=
  jsTrim f = f ∧ f.data.contains '"' = false

theorem goodField_of_trim {cur : List Char} (hq : cur.contains '"' = false) :
    goodField (String.mk (trimChars cur)) := by
  constructor
  · rw [jsTrim]
    show String.mk (trimChars (trimChars cur)) = String.mk (trimChars cur)
    rw [trimChars_idem]
  · show (trimChars cur).contains '"' = false
    cases hc : (trimChars cur).contains '"' with
    | false => rfl
    | true =>
      have hmem : '"' ∈ trimChars cur := by simpa using hc
      have : '"' ∈ cur := mem_of_mem_trimChars hmem
      rw [List.contains_eq_any_beq] at hq
      have : cur.any (fun x => '"' == x) = true := by
        rw [List.any_eq_true]
        exact ⟨'"', this, by simp⟩
      rw [this] at hq
      simp at hq

theorem fieldStep_case_quote (res : List String) (cur : List Char) (inQ : Bool) :
    fieldStep (res, cur, inQ) '"' = (res, cur, !inQ) := by
  rfl

theorem fieldStep_case_comma (res : List String) (cur : List Char) :
    fieldStep (res, cur, false) ',' = (res ++ [String.mk (trimChars cur)], [], false) := by
  rfl

theorem fieldStep_case_other (res : List String) (cur : List Char) (inQ : Bool) (c : Char)
    (hq : c ≠ '"') (hcomma : (c = ',' && !inQ) = false) :
    fieldStep (res, cur, inQ) c = (res, cur ++ [c], inQ) := by
  rw [fieldStep]
  simp only [if_neg hq]
  rw [if_neg (by simp [hcomma])]

theorem fieldStep_fold_invariant :
    ∀ (cs : List Char) (res : List String) (cur : List Char) (inQ : Bool),
      (∀ f ∈ res, goodField f) → cur.contains '"' = false →
      (∀ f ∈ (cs.foldl fieldStep (res, cur, inQ)).1, goodField f)
      ∧ ((cs.foldl fieldStep (res, cur, inQ)).2.1.contains '"' = false) := by
  intro cs
  induction cs with
  | nil =>
    intro res cur inQ hres hcur
    exact ⟨hres, hcur⟩
  | cons c tl ih =>
    intro res cur inQ hres hcur
    rw [List.foldl_cons]
    by_cases hq : c = '"'
    · subst hq
      rw [fieldStep_case_quote]
      exact ih res cur (!inQ) hres hcur
    · by_cases hcomma : (c = ',' && !inQ) = true
      · obtain ⟨hc, hinq⟩ : c = ',' ∧ inQ = false := by simpa using hcomma
        subst hc
        subst hinq
        rw [fieldStep_case_comma]
        refine ih _ [] false ?_ (by simp)
        intro f hf
        rcases List.mem_append.mp hf with hf | hf
        · exact hres f hf
        · rw [List.mem_singleton] at hf
          subst hf
          exact goodField_of_trim hcur
      · rw [fieldStep_case_other res cur inQ c hq (by simpa using hcomma)]
        refine ih res (cur ++ [c]) inQ hres ?_
        rw [List.contains_eq_any_beq, List.any_append]
        rw [List.contains_eq_any_beq] at hcur
        simp only [hcur, Bool.false_or, List.any_cons, List.any_nil, Bool.or_false]
        simpa using fun h => hq h.symm

/-- C10: every field value produced by the CSV tokenizer is trim-stable
and contains no double-quote character — the line splitter keeps quotes
only to track quoting state, and the field splitter drops every quote
and trims each field before emitting it. -/
theorem tokenizer_fields_trimmed_quote_free :
    (∀ (line : String) (f : String), f ∈ parseCSVLine line →
      jsTrim f = f ∧ f.data.contains '"' = false)
    ∧ (∀ (text : String) (row : List String) (f : String),
        row ∈ tokenizeCSV text → f ∈ row →
      jsTrim f = f ∧ f.data.contains '"' = false) := by
  have hline : ∀ (line : String) (f : String), f ∈ parseCSVLine line → goodField f := by
    intro line f hf
    rw [parseCSVLine] at hf
    have hinv := fieldStep_fold_invariant line.data [] [] false (by simp) (by simp)
    rcases List.mem_append.mp hf with hf | hf
    · exact hinv.1 f hf
    · rw [List.mem_singleton] at hf
      subst hf
      exact goodField_of_trim hinv.2
  refine ⟨fun line f hf => hline line f hf, ?_⟩
  intro text row f hrow hf
  rw [tokenizeCSV] at hrow
  obtain ⟨line, _, hparse⟩ := List.mem_map.mp hrow
  subst hparse
  exact hline line f hf

/-- Witness: a quoted, padded field with an embedded comma comes out
trimmed and quote-free. -/
theorem tokenizer_fields_trimmed_quote_free_witness :
    ("x, y" ∈ parseCSVLine "a, \"x, y\" ,b")
    ∧ (jsTrim "x, y" = "x, y" ∧ ("x, y").data.contains '"' = false) :=
  ⟨by decide,
   tokenizer_fields_trimmed_quote_free.1 "a, \"x, y\" ,b" "x, y" (by decide)⟩

/-! ### CSV serialization and the round-trip property (C7) -/

/-- A field must be quoted when it embeds a comma or a newline. -/
def fieldNeedsQuotes (f : String) : Bool :=
  f.data.contains ',' || f.data.contains '\n'

/-- Standard CSV serialization of one field (fields containing double
quotes are outside the round-trip domain, since the tokenizer drops
every quote). -/
def serializeField (f : String) : String :=
  if fieldNeedsQuotes f then "\"" ++ f ++ "\"" else f

/-- Serialize one row: comma-join the serialized fields. -/
def serializeRow (r : List String) : String :=
  joinStr "," (r.map serializeField)

/-- Serialize a sheet: newline-join the serialized rows. -/
def serializeCSV (rows : List (List String)) : String :=
  joinStr "\n" (rows.map serializeRow)

/-- The round-trip domain: a nonempty row, not the singleton empty
field (its serialization would be a blank line, which the splitter
drops), every field trim-stable and quote-free. -/
def goodRow (r : List String) : Prop :=
  r ≠ [] ∧ r ≠ [""] ∧ ∀ f ∈ r, jsTrim f = f ∧ f.data.contains '"' = false

instance : DecidablePred goodRow := fun r => by
  rw [goodRow]
  infer_instance

theorem lineStep_other (lines : List (List Char)) (cur : List Char) (inQ : Bool) (c : Char)
    (hq : c ≠ '"') (hn : c ≠ '\n') :
    lineStep (lines, cur, inQ) c = (lines, cur ++ [c], inQ) := by
  rw [lineStep]
  simp only [if_neg hq]
  rw [if_neg (by simp [hn])]

theorem lineStep_quote (lines : List (List Char)) (cur : List Char) (inQ : Bool) :
    lineStep (lines, cur, inQ) '"' = (lines, cur ++ ['"'], !inQ) := by
  rw [lineStep]
  simp

theorem lineStep_newline_quoted (lines : List (List Char)) (cur : List Char) :
    lineStep (lines, cur, true) '\n' = (lines, cur ++ ['\n'], true) := by
  rfl

theorem lineStep_newline (lines : List (List Char)) (cur : List Char) :
    lineStep (lines, cur, false) '\n'
      = (if (trimChars cur).isEmpty then lines else lines ++ [cur], [], false) := by
  rfl

theorem lineStep_pass_unquoted :
    ∀ (cs : List Char) (lines : List (List Char)) (cur : List Char),
      (∀ c ∈ cs, c ≠ '\n' ∧ c ≠ '"') →
      cs.foldl lineStep (lines, cur, false) = (lines, cur ++ cs, false) := by
  intro cs
  induction cs with
  | nil => intro lines cur _; simp
  | cons c tl ih =>
    intro lines cur h
    have hc := h c (List.mem_cons_self c tl)
    rw [List.foldl_cons, lineStep_other lines cur false c hc.2 hc.1,
      ih lines (cur ++ [c]) (fun x hx => h x (List.mem_cons_of_mem c hx))]
    simp

theorem lineStep_pass_quoted :
    ∀ (cs : List Char) (lines : List (List Char)) (cur : List Char),
      (∀ c ∈ cs, c ≠ '"') →
      cs.foldl lineStep (lines, cur, true) = (lines, cur ++ cs, true) := by
  intro cs
  induction cs with
  | nil => intro lines cur _; simp
  | cons c tl ih =>
    intro lines cur h
    have hc := h c (List.mem_cons_self c tl)
    have hstep : lineStep (lines, cur, true) c = (lines, cur ++ [c], true) := by
      by_cases hn : c = '\n'
      · subst hn
        exact lineStep_newline_quoted lines cur
      · exact lineStep_other lines cur true c hc hn
    rw [List.foldl_cons, hstep,
      ih lines (cur ++ [c]) (fun x hx => h x (List.mem_cons_of_mem c hx))]
    simp

theorem not_contains_iff_forall {cs : List Char} {a : Char} :
    cs.contains a = false ↔ ∀ c ∈ cs, c ≠ a := by
  rw [← Bool.not_eq_true, List.contains_eq_any_beq, List.any_eq_true]
  constructor
  · intro h c hc hca
    exact h ⟨c, hc, by simp [hca]⟩
  · rintro h ⟨c, hc, hbeq⟩
    have hac : a = c := by simpa using hbeq
    exact h c hc hac.symm

theorem serializeField_pass (f : String) (hgood : jsTrim f = f ∧ f.data.contains '"' = false)
    (lines : List (List Char)) (cur : List Char) :
    (serializeField f).data.foldl lineStep (lines, cur, false)
      = (lines, cur ++ (serializeField f).data, false) := by
  have hnoq : ∀ c ∈ f.data, c ≠ '"' := not_contains_iff_forall.mp hgood.2
  by_cases hneed : fieldNeedsQuotes f = true
  · have hser : serializeField f = "\"" ++ f ++ "\"" := by
      rw [serializeField, if_pos hneed]
    have hdata : (serializeField f).data = '"' :: (f.data ++ ['"']) := by
      rw [hser, String.data_append, String.data_append]
      rfl
    rw [hdata, List.foldl_cons, lineStep_quote lines cur false]
    rw [show (!false) = true from rfl]
    rw [List.foldl_append, lineStep_pass_quoted f.data lines (cur ++ ['"']) hnoq,
      List.foldl_cons, lineStep_quote, List.foldl_nil]
    simp
  · have hser : serializeField f = f := by
      rw [serializeField, if_neg hneed]
    have hnon : f.data.contains ',' = false ∧ f.data.contains '\n' = false := by
      rw [fieldNeedsQuotes] at hneed
      constructor
      · cases h : f.data.contains ',' with
        | false => rfl
        | true => rw [h] at hneed; simp at hneed
      · cases h : f.data.contains '\n' with
        | false => rfl
        | true => rw [h] at hneed; simp at hneed
    rw [hser]
    exact lineStep_pass_unquoted f.data lines cur
      (fun c hc => ⟨not_contains_iff_forall.mp hnon.2 c hc,
                    not_contains_iff_forall.mp hgood.2 c hc⟩)

theorem joinStr_cons_cons (sep : String) (s t : String) (rest : List String) :
    joinStr sep (s :: t :: rest) = s ++ sep ++ joinStr sep (t :: rest) := rfl

theorem serializeRow_pass :
    ∀ (r : List String), (∀ f ∈ r, jsTrim f = f ∧ f.data.contains '"' = false) →
    ∀ (lines : List (List Char)) (cur : List Char),
      (serializeRow r).data.foldl lineStep (lines, cur, false)
        = (lines, cur ++ (serializeRow r).data, false) := by
  intro r
  induction r with
  | nil =>
    intro _ lines cur
    show List.foldl lineStep (lines, cur, false) [] = _
    simp [serializeRow, joinStr]
  | cons f rest ih =>
    intro hgood lines cur
    cases rest with
    | nil =>
      have : serializeRow [f] = serializeField f := by
        rw [serializeRow]
        rfl
      rw [this]
      exact serializeField_pass f (hgood f (by simp)) lines cur
    | cons g rs =>
      have hrow : serializeRow (f :: g :: rs)
          = serializeField f ++ "," ++ serializeRow (g :: rs) := by
        rw [serializeRow, serializeRow, List.map_cons]
        exact joinStr_cons_cons "," (serializeField f) (serializeField g) (rs.map serializeField)
      rw [hrow, String.data_append, String.data_append, List.foldl_append, List.foldl_append]
      rw [serializeField_pass f (hgood f (by simp)) lines cur]
      have hcomma : (",").data.foldl lineStep (lines, cur ++ (serializeField f).data, false)
          = (lines, (cur ++ (serializeField f).data) ++ [','], false) := by
        show List.foldl lineStep _ [','] = _
        rw [List.foldl_cons, lineStep_other _ _ false ',' (by decide) (by decide),
          List.foldl_nil]
      rw [hcomma, ih (fun x hx => hgood x (List.mem_cons_of_mem f hx))]
      simp [List.append_assoc]

theorem data_ne_nil_of_ne_empty {f : String} (h : f ≠ "") : f.data ≠ [] := by
  intro hd
  apply h
  cases f with
  | mk data =>
    simp at hd
    rw [hd]

theorem serializeRow_nonblank (r : List String) (hr : goodRow r) :
    (trimChars (serializeRow r).data).isEmpty = false := by
  obtain ⟨hne, hnsingle, hgood⟩ := hr
  cases r with
  | nil => exact absurd rfl hne
  | cons f rest =>
    cases rest with
    | nil =>
      have hfne : f ≠ "" := by
        intro hc
        subst hc
        exact hnsingle rfl
      have hser : serializeRow [f] = serializeField f := by
        rw [serializeRow]
        rfl
      rw [hser]
      by_cases hneed : fieldNeedsQuotes f = true
      · have hdata : (serializeField f).data = '"' :: (f.data ++ ['"']) := by
          rw [serializeField, if_pos hneed, String.data_append, String.data_append]
          rfl
        rw [hdata]
        exact trimChars_ne_nil_of_mem (a := '"') (by simp) (by decide)
      · have hdata : (serializeField f).data = f.data := by
          rw [serializeField, if_neg hneed]
        rw [hdata]
        have htrim : trimChars f.data = f.data := by
          have := congrArg String.data (hgood f (by simp)).1
          simpa [jsTrim] using this
        rw [htrim]
        have := data_ne_nil_of_ne_empty hfne
        cases hd : f.data with
        | nil => exact absurd hd this
        | cons c cs => simp
    | cons g rs =>
      have hrow : serializeRow (f :: g :: rs)
          = serializeField f ++ "," ++ serializeRow (g :: rs) := by
        rw [serializeRow, serializeRow, List.map_cons]
        exact joinStr_cons_cons "," (serializeField f) (serializeField g) (rs.map serializeField)
      have hmem : ',' ∈ (serializeRow (f :: g :: rs)).data := by
        rw [hrow, String.data_append, String.data_append]
        simp
      exact trimChars_ne_nil_of_mem (a := ',') hmem (by decide)

theorem serializeCSV_split :
    ∀ (rows : List (List String)), (∀ r ∈ rows, goodRow r) →
    ∀ (lines : List (List Char)),
      finishLines ((serializeCSV rows).data.foldl lineStep (lines, [], false))
        = lines ++ rows.map (fun r => (serializeRow r).data) := by
  intro rows
  induction rows with
  | nil =>
    intro _ lines
    show finishLines (List.foldl lineStep (lines, [], false) []) = _
    simp [finishLines, trimChars]
  | cons r rest ih =>
    intro hgood lines
    have hr : goodRow r := hgood r (by simp)
    cases rest with
    | nil =>
      have hser : serializeCSV [r] = serializeRow r := by
        rw [serializeCSV]
        rfl
      rw [hser, serializeRow_pass r hr.2.2 lines []]
      rw [finishLines]
      rw [if_neg (by simp [serializeRow_nonblank r hr])]
      simp
    | cons r2 rs =>
      have hser : serializeCSV (r :: r2 :: rs)
          = serializeRow r ++ "\n" ++ serializeCSV (r2 :: rs) := by
        rw [serializeCSV, serializeCSV, List.map_cons]
        exact joinStr_cons_cons "\n" (serializeRow r) (serializeRow r2)
          (rs.map serializeRow)
      rw [hser, String.data_append, String.data_append, List.foldl_append, List.foldl_append]
      rw [serializeRow_pass r hr.2.2 lines []]
      have hnl : ("\n").data.foldl lineStep (lines, [] ++ (serializeRow r).data, false)
          = (lines ++ [(serializeRow r).data], [], false) := by
        show List.foldl lineStep _ ['\n'] = _
        rw [List.foldl_cons, lineStep_newline, List.foldl_nil]
        rw [if_neg (by simp [serializeRow_nonblank r hr])]
        simp
      rw [hnl, ih (fun x hx => hgood x (List.mem_cons_of_mem r hx)) (lines ++ [(serializeRow r).data])]
      simp

theorem splitCSVLines_serialize (rows : List (List String)) (h : ∀ r ∈ rows, goodRow r) :
    splitCSVLines (serializeCSV rows) = rows.map serializeRow := by
  rw [splitCSVLines, serializeCSV_split rows h []]
  rw [List.nil_append, List.map_map]
  apply List.map_congr_left
  intro r _
  rfl

theorem fieldStep_pass_unquoted :
    ∀ (cs : List Char) (res : List String) (cur : List Char),
      (∀ c ∈ cs, c ≠ '"' ∧ c ≠ ',') →
      cs.foldl fieldStep (res, cur, false) = (res, cur ++ cs, false) := by
  intro cs
  induction cs with
  | nil => intro res cur _; simp
  | cons c tl ih =>
    intro res cur h
    have hc := h c (List.mem_cons_self c tl)
    rw [List.foldl_cons, fieldStep_case_other res cur false c hc.1
      (by simp [hc.2]), ih res (cur ++ [c]) (fun x hx => h x (List.mem_cons_of_mem c hx))]
    simp

theorem fieldStep_pass_quoted :
    ∀ (cs : List Char) (res : List String) (cur : List Char),
      (∀ c ∈ cs, c ≠ '"') →
      cs.foldl fieldStep (res, cur, true) = (res, cur ++ cs, true) := by
  intro cs
  induction cs with
  | nil => intro res cur _; simp
  | cons c tl ih =>
    intro res cur h
    have hc := h c (List.mem_cons_self c tl)
    rw [List.foldl_cons, fieldStep_case_other res cur true c hc (by simp),
      ih res (cur ++ [c]) (fun x hx => h x (List.mem_cons_of_mem c hx))]
    simp

theorem serializeField_parse (f : String)
    (hgood : jsTrim f = f ∧ f.data.contains '"' = false) (res : List String) :
    (serializeField f).data.foldl fieldStep (res, [], false) = (res, f.data, false) := by
  have hnoq : ∀ c ∈ f.data, c ≠ '"' := not_contains_iff_forall.mp hgood.2
  by_cases hneed : fieldNeedsQuotes f = true
  · have hdata : (serializeField f).data = '"' :: (f.data ++ ['"']) := by
      rw [serializeField, if_pos hneed, String.data_append, String.data_append]
      rfl
    rw [hdata, List.foldl_cons, fieldStep_case_quote res [] false, List.foldl_append]
    rw [show (!false) = true from rfl,
      fieldStep_pass_quoted f.data res [] hnoq, List.foldl_cons,
      fieldStep_case_quote, List.foldl_nil]
    simp
  · have hdata : (serializeField f).data = f.data := by
      rw [serializeField, if_neg hneed]
    have hnc : f.data.contains ',' = false := by
      rw [fieldNeedsQuotes] at hneed
      cases h : f.data.contains ',' with
      | false => rfl
      | true => rw [h] at hneed; simp at hneed
    rw [hdata]
    exact fieldStep_pass_unquoted f.data res []
      (fun c hc => ⟨hnoq c hc, not_contains_iff_forall.mp hnc c hc⟩)

theorem serializeRow_parse :
    ∀ (r : List String), r ≠ [] →
      (∀ f ∈ r, jsTrim f = f ∧ f.data.contains '"' = false) →
    ∀ (res : List String),
      ((serializeRow r).data.foldl fieldStep (res, [], false)).1
          ++ [String.mk (trimChars ((serializeRow r).data.foldl fieldStep
                (res, [], false)).2.1)]
        = res ++ r := by
  intro r
  induction r with
  | nil => intro hne; exact absurd rfl hne
  | cons f rest ih =>
    intro _ hgood res
    have hf := hgood f (by simp)
    have hmk : String.mk (trimChars f.data) = f := by
      have := congrArg String.data hf.1
      simp only [jsTrim] at this
      calc String.mk (trimChars f.data) = jsTrim f := rfl
        _ = f := hf.1
    cases rest with
    | nil =>
      have hser : serializeRow [f] = serializeField f := by
        rw [serializeRow]
        rfl
      rw [hser, serializeField_parse f hf res]
      simp [hmk]
    | cons g rs =>
      have hrow : serializeRow (f :: g :: rs)
          = serializeField f ++ "," ++ serializeRow (g :: rs) := by
        rw [serializeRow, serializeRow, List.map_cons]
        exact joinStr_cons_cons "," (serializeField f) (serializeField g) (rs.map serializeField)
      rw [hrow, String.data_append, String.data_append, List.foldl_append, List.foldl_append]
      rw [serializeField_parse f hf res]
      have hcomma : (",").data.foldl fieldStep (res, f.data, false)
          = (res ++ [f], [], false) := by
        show List.foldl fieldStep _ [','] = _
        rw [List.foldl_cons, fieldStep_case_comma res f.data, List.foldl_nil, hmk]
      rw [hcomma, ih (by simp) (fun x hx => hgood x (List.mem_cons_of_mem f hx)) (res ++ [f])]
      simp

theorem parseCSVLine_serializeRow (r : List String) (hr : goodRow r) :
    parseCSVLine (serializeRow r) = r := by
  obtain ⟨hne, _, hgood⟩ := hr
  have h := serializeRow_parse r hne hgood []
  rw [parseCSVLine]
  simpa using h

/-- C7 counterexample: the tokenizer trims every field, so a row with a
space-padded field does not survive the `serialize → tokenize` round
trip even though its serialization is well formed (no unterminated
quotes). -/
theorem csv_roundtrip_counterexample :
    tokenizeCSV (serializeCSV [[" a"]]) ≠ [[" a"]] := by
  decide

/-- C7 (amended): the round trip reproduces the rows exactly — embedded
commas and newlines included — for rows in the tokenizer's own output
domain: every field trim-stable and double-quote-free, every row
nonempty and not the lone empty field. -/
theorem csv_roundtrip_amended (rows : List (List String)) (h : ∀ r ∈ rows, goodRow r) :
    tokenizeCSV (serializeCSV rows) = rows := by
  rw [tokenizeCSV, splitCSVLines_serialize rows h, List.map_map]
  have hcongr : ∀ r ∈ rows, (parseCSVLine ∘ serializeRow) r = id r := by
    intro r hr
    show parseCSVLine (serializeRow r) = r
    exact parseCSVLine_serializeRow r (h r hr)
  rw [List.map_congr_left hcongr, List.map_id]

/-- Witness: a sheet with an embedded comma, an embedded newline and an
empty leading field round-trips exactly. -/
theorem csv_roundtrip_amended_witness :
    (∀ r ∈ [["a,b", "c\nd"], ["", "e"]], goodRow r)
    ∧ tokenizeCSV (serializeCSV [["a,b", "c\nd"], ["", "e"]])
        = [["a,b", "c\nd"], ["", "e"]] :=
  ⟨by decide, csv_roundtrip_amended [["a,b", "c\nd"], ["", "e"]] (by decide)⟩

/-! ## CSV rows, parsed products and the grouper (`parseCSV`) -/

/-- Model of a `CSVRow` record (one flat record per CSV data line). -/
structure CSVRow where
  productCode : String := ""
  productName : String := ""
  category : String := ""
  shortDescription : String := ""
  fullDescription : String := ""
  sizeMmInch : String := ""
  colourFinish : String := ""
  packingSize : String := ""
  mrpInr : String := ""
  hsnCode : String := ""
  material : String := ""
  variantCode : String := ""
  productImageUrl : String := ""
  notes : String := ""
deriving DecidableEq, Repr

/-- Model of `ImportAction`. -/
inductive ImportAction
  | create
  | skip
  | update
deriving DecidableEq, Repr

/-- Model of the category match type (`'slug' | 'name'`). -/
inductive CategoryMatchType
  | slug
  | name
deriving DecidableEq, Repr

/-- Model of the duplicate match type (`'code' | 'name'`). -/
inductive ExistingMatchType
  | code
  | name
deriving DecidableEq, Repr

/-- Model of a Variant Draft. -/
structure VariantDraft where
  size : String
  finish : String
  price : Rat
  sku : String
deriving DecidableEq, Repr

/-- Model of a `ParsedProduct` draft. -/
structure ParsedProduct where
  productCode : String
  name : String := ""
  category : String := ""
  categoryId : Option String := none
  categorySlug : Option String := none
  categoryPath : Option (List String) := none
  categoryPathLabel : Option String := none
  categoryAncestors : Option (List String) := none
  categoryMatchType : Option CategoryMatchType := none
  shortDescription : String := ""
  fullDescription : String := ""
  variants : List VariantDraft := []
  imageUrl : String := ""
  action : ImportAction := .create
  existingProductId : Option String := none
  existingProductName : Option String := none
  existingUpdatedAt : Option String := none
  existingMatchType : Option ExistingMatchType := none
deriving DecidableEq, Repr

/-- Value of a digit run. -/
def digitsVal (cs : List Char) : Nat :=
  cs.foldl (fun n c => n * 10 + (c.toNat - ('0').toNat)) 0

/-- Model of `parseFloat` applied to a string containing only digits
and dots (the shape left by the strip below): the longest leading
numeric run, `0` for `NaN` (matching the `|| 0` fallback). -/
def parsePriceChars (cs : List Char) : Rat :=
  let intPart := cs.takeWhile Char.isDigit
  let rest := cs.drop intPart.length
  match rest with
  | '.' :: rest2 =>
    let fracPart := rest2.takeWhile Char.isDigit
    if intPart.isEmpty && fracPart.isEmpty then 0
    else (digitsVal intPart : Rat) + (digitsVal fracPart : Rat) / ((10 : Rat) ^ fracPart.length)
  | _ => if intPart.isEmpty then 0 else (digitsVal intPart : Rat)

/-- Model of `parseFloat(row['MRP (INR)'].replace(/[^0-9.]/g, '')) || 0`. -/
def parsePrice (s : String) : Rat :=
  parsePriceChars (s.data.filter (fun c => c.isDigit || c = '.'))

/-- The Variant Draft contributed by one row (`sku` falls back to
`productCode-size-finish` when the `Variant Code` cell is empty). -/
def mkVariant (row : CSVRow) (productCode : String) : VariantDraft :=
  { size := row.sizeMmInch
    finish := row.colourFinish
    price := parsePrice row.mrpInr
    sku := if row.variantCode ≠ "" then row.variantCode
           else productCode ++ "-" ++ row.sizeMmInch ++ "-" ++ row.colourFinish }

/-- The draft created by the first row carrying a product code. -/
def newDraft (row : CSVRow) : ParsedProduct :=
  { productCode := row.productCode
    name := row.productName
    category := row.category
    shortDescription := row.shortDescription
    fullDescription := row.fullDescription
    imageUrl := row.productImageUrl
    variants := []
    action := .create }

/-- One row of the grouping fold: create the draft on first sight of a
code, then append this row's variant to it. -/
def groupStep (m : List (String × ParsedProduct)) (row : CSVRow) :
    List (String × ParsedProduct) :=
  let pc := row.productCode
  let base := match assocGet m pc with
    | some p => p
    | none => newDraft row
  assocSet m pc { base with variants := base.variants ++ [mkVariant row pc] }

/-- The insertion-ordered `productMap` after folding all rows. -/
def groupRows (rows : List CSVRow) : List (String × ParsedProduct) :=
  rows.foldl groupStep []

/-- Model of `Array.from(productMap.values())`. -/
def groupProducts (rows : List CSVRow) : List ParsedProduct :=
  (groupRows rows).map Prod.snd

/-- Total variant count across the grouped map. -/
def totalVariants (m : List (String × ParsedProduct)) : Nat :=
  (m.map (fun p => p.2.variants.length)).sum

theorem assocGet_eq_none_iff {α : Type} (m : List (String × α)) (k : String) :
    assocGet m k = none ↔ k ∉ m.map Prod.fst := by
  induction m with
  | nil => simp [assocGet]
  | cons p rest ih =>
    obtain ⟨k', v⟩ := p
    by_cases hk : k' = k
    · subst hk
      simp [assocGet]
    · simp only [assocGet, if_neg hk, List.map_cons, List.mem_cons, ih]
      constructor
      · intro h hc
        rcases hc with hc | hc
        · exact hk hc.symm
        · exact h hc
      · intro h hc
        exact h (Or.inr hc)

theorem keys_assocSet_mem {α : Type} (m : List (String × α)) (k : String) (v : α)
    (h : k ∈ m.map Prod.fst) : (assocSet m k v).map Prod.fst = m.map Prod.fst := by
  induction m with
  | nil => simp at h
  | cons p rest ih =>
    obtain ⟨k', v'⟩ := p
    by_cases hk : k' = k
    · subst hk
      simp [assocSet]
    · rw [List.map_cons, List.mem_cons] at h
      rcases h with h | h
      · exact absurd h.symm hk
      · rw [assocSet]
        simp only [if_neg hk, List.map_cons, ih h]

theorem mem_keys_assocSet {α : Type} (m : List (String × α)) (k : String) (v : α) (k' : String) :
    k' ∈ (assocSet m k v).map Prod.fst ↔ k' ∈ m.map Prod.fst ∨ k' = k := by
  by_cases hmem : k ∈ m.map Prod.fst
  · rw [keys_assocSet_mem m k v hmem]
    constructor
    · exact Or.inl
    · intro h
      rcases h with h | h
      · exact h
      · subst h
        exact hmem
  · rw [assocSet_of_get_none m k v ((assocGet_eq_none_iff m k).mpr hmem)]
    simp

theorem nodup_keys_assocSet {α : Type} (m : List (String × α)) (k : String) (v : α)
    (h : (m.map Prod.fst).Nodup) : ((assocSet m k v).map Prod.fst).Nodup := by
  by_cases hmem : k ∈ m.map Prod.fst
  · rw [keys_assocSet_mem m k v hmem]
    exact h
  · rw [assocSet_of_get_none m k v ((assocGet_eq_none_iff m k).mpr hmem)]
    rw [List.map_append]
    simp only [List.map_cons, List.map_nil]
    rw [List.nodup_append]
    refine ⟨h, by simp, ?_⟩
    intro a ha hb
    simp at hb
    subst hb
    exact hmem ha

theorem mem_assocSet_values {α : Type} (m : List (String × α)) (k : String) (v : α)
    (q : String × α) (h : q ∈ assocSet m k v) : q ∈ m ∨ q = (k, v) := by
  induction m with
  | nil =>
    simp [assocSet] at h
    exact Or.inr h
  | cons p rest ih =>
    obtain ⟨k', v'⟩ := p
    by_cases hk : k' = k
    · subst hk
      rw [assocSet] at h
      simp only [if_pos rfl] at h
      rcases List.mem_cons.mp h with h | h
      · exact Or.inr h
      · exact Or.inl (List.mem_cons_of_mem _ h)
    · rw [assocSet] at h
      simp only [if_neg hk] at h
      rcases List.mem_cons.mp h with h | h
      · exact Or.inl (by simp [h])
      · rcases ih h with h | h
        · exact Or.inl (List.mem_cons_of_mem _ h)
        · exact Or.inr h

theorem totalVariants_append_one (m : List (String × ParsedProduct)) (k : String)
    (p : ParsedProduct) : totalVariants (m ++ [(k, p)]) = totalVariants m + p.variants.length := by
  rw [totalVariants, totalVariants, List.map_append, List.sum_append]
  simp

theorem totalVariants_set_existing (m : List (String × ParsedProduct)) (k : String)
    (p : ParsedProduct) (x : VariantDraft) (h : assocGet m k = some p) :
    totalVariants (assocSet m k { p with variants := p.variants ++ [x] })
      = totalVariants m + 1 := by
  induction m with
  | nil => simp [assocGet] at h
  | cons q rest ih =>
    obtain ⟨k', p'⟩ := q
    by_cases hk : k' = k
    · subst hk
      rw [assocGet] at h
      simp only [if_pos rfl] at h
      cases h
      rw [assocSet]
      simp only [if_pos rfl]
      rw [totalVariants, totalVariants]
      simp only [List.map_cons, List.sum_cons, List.length_append]
      simp
      omega
    · rw [assocGet] at h
      simp only [if_neg hk] at h
      rw [assocSet]
      simp only [if_neg hk]
      rw [totalVariants, totalVariants]
      simp only [List.map_cons, List.sum_cons]
      have := ih h
      rw [totalVariants, totalVariants] at this
      omega

theorem groupStep_totalVariants (m : List (String × ParsedProduct)) (row : CSVRow) :
    totalVariants (groupStep m row) = totalVariants m + 1 := by
  rw [groupStep]
  cases hget : assocGet m row.productCode with
  | some p =>
    simp only [hget]
    exact totalVariants_set_existing m row.productCode p (mkVariant row row.productCode) hget
  | none =>
    simp only [hget]
    rw [assocSet_of_get_none m row.productCode _ hget, totalVariants_append_one]
    simp [newDraft]

theorem groupStep_keys_mem (m : List (String × ParsedProduct)) (row : CSVRow) (k : String) :
    k ∈ (groupStep m row).map Prod.fst ↔ k ∈ m.map Prod.fst ∨ k = row.productCode := by
  rw [groupStep]
  cases hget : assocGet m row.productCode with
  | some p =>
    simp only [hget]
    exact mem_keys_assocSet m row.productCode _ k
  | none =>
    simp only [hget]
    exact mem_keys_assocSet m row.productCode _ k

theorem groupStep_keys_nodup (m : List (String × ParsedProduct)) (row : CSVRow)
    (h : (m.map Prod.fst).Nodup) : ((groupStep m row).map Prod.fst).Nodup := by
  rw [groupStep]
  cases hget : assocGet m row.productCode with
  | some p =>
    simp only [hget]
    exact nodup_keys_assocSet m row.productCode _ h
  | none =>
    simp only [hget]
    exact nodup_keys_assocSet m row.productCode _ h

theorem groupStep_value_inv (m : List (String × ParsedProduct)) (row : CSVRow)
    (h : ∀ q ∈ m, (Prod.snd q).productCode = q.1) :
    ∀ q ∈ groupStep m row, (Prod.snd q).productCode = q.1 := by
  intro q hq
  rw [groupStep] at hq
  rcases hget : assocGet m row.productCode with _ | p
  all_goals rw [hget] at hq
  · rcases mem_assocSet_values _ _ _ q hq with hmem | heq
    · exact h q hmem
    · subst heq
      simp [newDraft]
  · rcases mem_assocSet_values _ _ _ q hq with hmem | heq
    · exact h q hmem
    · subst heq
      have hbase : p.productCode = row.productCode := by
        have : ∃ q', q' ∈ m ∧ q'.1 = row.productCode ∧ q'.2 = p := by
          clear h hq
          induction m with
          | nil => simp [assocGet] at hget
          | cons r rest ih =>
            obtain ⟨k', v'⟩ := r
            by_cases hk : k' = row.productCode
            · subst hk
              rw [assocGet] at hget
              simp only [if_pos rfl] at hget
              cases hget
              exact ⟨(row.productCode, p), by simp, rfl, rfl⟩
            · rw [assocGet] at hget
              simp only [if_neg hk] at hget
              obtain ⟨q', hq', h1, h2⟩ := ih hget
              exact ⟨q', List.mem_cons_of_mem _ hq', h1, h2⟩
        obtain ⟨q', hq', h1, h2⟩ := this
        have := h q' hq'
        rw [h2] at this
        rw [this, h1]
      simp [hbase]

theorem groupRowsAux :
    ∀ (rows : List CSVRow) (m : List (String × ParsedProduct)),
      (∀ q ∈ m, (Prod.snd q).productCode = q.1) → (m.map Prod.fst).Nodup →
      ((rows.foldl groupStep m).map Prod.fst).Nodup
      ∧ (∀ k, k ∈ (rows.foldl groupStep m).map Prod.fst
          ↔ k ∈ m.map Prod.fst ∨ k ∈ rows.map (fun row => row.productCode))
      ∧ totalVariants (rows.foldl groupStep m) = totalVariants m + rows.length
      ∧ (∀ q ∈ rows.foldl groupStep m, (Prod.snd q).productCode = q.1) := by
  intro rows
  induction rows with
  | nil =>
    intro m hinv hnodup
    refine ⟨hnodup, ?_, by simp, hinv⟩
    intro k
    simp
  | cons row rest ih =>
    intro m hinv hnodup
    rw [List.foldl_cons]
    obtain ⟨h1, h2, h3, h4⟩ := ih (groupStep m row) (groupStep_value_inv m row hinv)
      (groupStep_keys_nodup m row hnodup)
    refine ⟨h1, ?_, ?_, h4⟩
    · intro k
      rw [h2 k, groupStep_keys_mem m row k]
      simp only [List.map_cons, List.mem_cons]
      tauto
    · rw [h3, groupStep_totalVariants m row, List.length_cons]
      omega

/-- C8 counterexample: the grouper keys on the raw product code, so two
rows whose codes differ only by surrounding whitespace yield two
products although they share one trimmed code. -/
theorem grouper_counterexample :
    (groupProducts [{ productCode := " a" }, { productCode := "a" }]).length = 2
    ∧ ((([{ productCode := " a" }, { productCode := "a" }] : List CSVRow).map
          (fun row => jsTrim row.productCode)).toFinset.card = 1) := by
  constructor
  · rfl
  · decide

/-- C8 (amended): the grouper returns exactly one parsed product per
distinct product code string as it appears in the rows (codes arriving
from the tokenizer are already trimmed, so trimming is a no-op there,
and the conjunct below makes that reading explicit), and the variant
counts of the returned products sum to the number of input rows. -/
theorem grouper_counts_amended (rows : List CSVRow) :
    ((groupProducts rows).map (fun p => p.productCode)).Nodup
    ∧ (∀ k, k ∈ (groupProducts rows).map (fun p => p.productCode)
        ↔ k ∈ rows.map (fun row => row.productCode))
    ∧ (groupProducts rows).length = (rows.map (fun row => row.productCode)).toFinset.card
    ∧ ((groupProducts rows).map (fun p => p.variants.length)).sum = rows.length
    ∧ ((∀ row ∈ rows, jsTrim row.productCode = row.productCode) →
        (groupProducts rows).length
          = (rows.map (fun row => jsTrim row.productCode)).toFinset.card) := by
  obtain ⟨h1, h2, h3, h4⟩ := groupRowsAux rows [] (by simp) (by simp)
  have hcodes : (groupProducts rows).map (fun p => p.productCode)
      = (groupRows rows).map Prod.fst := by
    rw [groupProducts, List.map_map]
    apply List.map_congr_left
    intro q hq
    exact h4 q hq
  have hmem : ∀ k, k ∈ (groupProducts rows).map (fun p => p.productCode)
      ↔ k ∈ rows.map (fun row => row.productCode) := by
    intro k
    rw [hcodes]
    rw [groupRows]
    rw [h2 k]
    simp
  have hnodup : ((groupProducts rows).map (fun p => p.productCode)).Nodup := by
    rw [hcodes]
    exact h1
  have hlen : (groupProducts rows).length
      = (rows.map (fun row => row.productCode)).toFinset.card := by
    have hlen1 : (groupProducts rows).length
        = ((groupProducts rows).map (fun p => p.productCode)).length := by
      simp
    rw [hlen1, ← List.toFinset_card_of_nodup hnodup]
    congr 1
    apply Finset.ext
    intro a
    rw [List.mem_toFinset, List.mem_toFinset]
    exact hmem a
  refine ⟨hnodup, hmem, hlen, ?_, ?_⟩
  · rw [groupProducts, List.map_map]
    show totalVariants (groupRows rows) = rows.length
    rw [groupRows]
    simpa [totalVariants] using h3
  · intro htrim
    have hmapeq : rows.map (fun row => jsTrim row.productCode)
        = rows.map (fun row => row.productCode) :=
      List.map_congr_left (fun row hrow => htrim row hrow)
    rw [hlen, hmapeq]

/-- Witness: two rows sharing a code and one distinct row yield two
products with three variants in total. -/
theorem grouper_counts_amended_witness :
    (∀ row ∈ ([{ productCode := "S-106" }, { productCode := "S-106" },
        { productCode := "S-107" }] : List CSVRow), jsTrim row.productCode = row.productCode)
    ∧ (groupProducts [{ productCode := "S-106" }, { productCode := "S-106" },
        { productCode := "S-107" }]).length
        = (([{ productCode := "S-106" }, { productCode := "S-106" },
            { productCode := "S-107" }] : List CSVRow).map
            (fun row => jsTrim row.productCode)).toFinset.card
    ∧ ((groupProducts [{ productCode := "S-106" }, { productCode := "S-106" },
        { productCode := "S-107" }]).map (fun p => p.variants.length)).sum = 3 :=
  ⟨by decide,
   (grouper_counts_amended _).2.2.2.2 (by decide),
   (grouper_counts_amended _).2.2.2.1⟩

/-! ## Duplicate detection and the re-detection pass (`page.tsx`) -/

/-- Model of `ExistingProductMeta`. -/
structure ExistingProductMeta where
  id : String
  name : String
  updatedAt : String
  productCode : Option String := none
deriving DecidableEq, Repr

/-- Model of `normalizeKey`: empty for a falsy value, otherwise
`trim().toLowerCase()`. -/
def normalizeKey (value : String) : String :=
  if value = "" then "" else lowerStr (jsTrim value)

/-- Model of `detectExistingProduct`: normalized product code first,
then normalized name; empty keys never match. -/
def detectExistingProduct (byCode byName : List (String × ExistingProductMeta))
    (productCode name : String) : Option (ExistingProductMeta × ExistingMatchType) :=
  let codeKey := normalizeKey productCode
  let codeResult : Option (ExistingProductMeta × ExistingMatchType) :=
    if codeKey ≠ "" then
      match assocGet byCode codeKey with
      | some m => some (m, ExistingMatchType.code)
      | none => none
    else none
  match codeResult with
  | some r => some r
  | none =>
    let nameKey := normalizeKey name
    if nameKey ≠ "" then
      match assocGet byName nameKey with
      | some m => some (m, ExistingMatchType.name)
      | none => none
    else none

/-- Model of one product's update inside the re-detection `useEffect`
(the `mutated` flag in the source only controls object identity, not
the resulting value). -/
def redetectStep (byCode byName : List (String × ExistingProductMeta))
    (product : ParsedProduct) : ParsedProduct :=
  match detectExistingProduct byCode byName product.productCode product.name with
  | some (meta, ty) =>
    if product.existingProductId = some meta.id ∧ product.existingMatchType = some ty then
      product
    else
      { product with
        existingProductId := some meta.id
        existingProductName := some meta.name
        existingUpdatedAt := some meta.updatedAt
        existingMatchType := some ty
        action := if product.existingProductId.isSome then product.action
                  else ImportAction.skip }
  | none =>
    if product.existingProductId.isSome then
      { product with
        existingProductId := none
        existingProductName := none
        existingUpdatedAt := none
        existingMatchType := none
        action := if product.action = ImportAction.skip then ImportAction.skip
                  else ImportAction.create }
    else product

/-- Model of the whole re-detection pass over `parsedData`. -/
def redetectPass (byCode byName : List (String × ExistingProductMeta))
    (prev : List ParsedProduct) : List ParsedProduct :=
  prev.map (redetectStep byCode byName)

/-- C4: one run of the duplicate-detection enrichment pass maps each
product as follows.  (i) A product with no stored match that now
matches gets action `skip` and the match's id, name, timestamp and
match type recorded; (ii) a product that already carried a match and
still matches keeps its current action; (iii) a product whose match
disappeared has every existing-product reference cleared and its
action reset to `create` unless it was `skip` — in particular it is
never left as `update`. -/
theorem redetect_action_semantics :
    (∀ (byCode byName : List (String × ExistingProductMeta)) (prev : List ParsedProduct),
      redetectPass byCode byName prev = prev.map (redetectStep byCode byName))
    ∧ (∀ (byCode byName : List (String × ExistingProductMeta)) (p : ParsedProduct)
        (meta : ExistingProductMeta) (ty : ExistingMatchType),
        detectExistingProduct byCode byName p.productCode p.name = some (meta, ty) →
        p.existingProductId = none →
      (redetectStep byCode byName p).action = ImportAction.skip
      ∧ (redetectStep byCode byName p).existingProductId = some meta.id
      ∧ (redetectStep byCode byName p).existingProductName = some meta.name
      ∧ (redetectStep byCode byName p).existingUpdatedAt = some meta.updatedAt
      ∧ (redetectStep byCode byName p).existingMatchType = some ty)
    ∧ (∀ (byCode byName : List (String × ExistingProductMeta)) (p : ParsedProduct)
        (meta : ExistingProductMeta) (ty : ExistingMatchType),
        detectExistingProduct byCode byName p.productCode p.name = some (meta, ty) →
        p.existingProductId.isSome →
      (redetectStep byCode byName p).action = p.action)
    ∧ (∀ (byCode byName : List (String × ExistingProductMeta)) (p : ParsedProduct),
        detectExistingProduct byCode byName p.productCode p.name = none →
        p.existingProductId.isSome →
      (redetectStep byCode byName p).existingProductId = none
      ∧ (redetectStep byCode byName p).existingProductName = none
      ∧ (redetectStep byCode byName p).existingUpdatedAt = none
      ∧ (redetectStep byCode byName p).existingMatchType = none
      ∧ (redetectStep byCode byName p).action
          = (if p.action = ImportAction.skip then ImportAction.skip else ImportAction.create)
      ∧ (redetectStep byCode byName p).action ≠ ImportAction.update) := by
  refine ⟨fun _ _ _ => rfl, ?_, ?_, ?_⟩
  · intro byCode byName p meta ty hdet hnone
    have hneq : ¬ (p.existingProductId = some meta.id ∧ p.existingMatchType = some ty) := by
      intro h
      rw [hnone] at h
      exact absurd h.1 (by simp)
    have hfalse : p.existingProductId.isSome = false := by rw [hnone]; rfl
    simp only [redetectStep, hdet]
    rw [if_neg hneq]
    simp [hfalse]
  · intro byCode byName p meta ty hdet hsome
    simp only [redetectStep, hdet]
    by_cases halready : p.existingProductId = some meta.id ∧ p.existingMatchType = some ty
    · rw [if_pos halready]
    · rw [if_neg halready]
      simp [hsome]
  · intro byCode byName p hdet hsome
    have hstep : redetectStep byCode byName p
        = { p with
            existingProductId := none
            existingProductName := none
            existingUpdatedAt := none
            existingMatchType := none
            action := if p.action = ImportAction.skip then ImportAction.skip
                      else ImportAction.create } := by
      simp only [redetectStep, hdet]
      rw [if_pos hsome]
    rw [hstep]
    refine ⟨rfl, rfl, rfl, rfl, rfl, ?_⟩
    by_cases hskip : p.action = ImportAction.skip
    · simp [hskip]
    · simp [hskip]

/-- Witness for the three re-detection clauses on concrete products:
a fresh first-time match, a preserved prior choice, and a vanished
match formerly pinned to `update`. -/
theorem redetect_action_semantics_witness :
    (detectExistingProduct [("p1", { id := "x1", name := "N1", updatedAt := "t" })] []
        "P1" "whatever" = some ({ id := "x1", name := "N1", updatedAt := "t" },
          ExistingMatchType.code))
    ∧ (redetectStep [("p1", { id := "x1", name := "N1", updatedAt := "t" })] []
        { productCode := "P1" }).action = ImportAction.skip
    ∧ (redetectStep [("p1", { id := "x1", name := "N1", updatedAt := "t" })] []
        { productCode := "P1", existingProductId := some "old",
          action := ImportAction.update }).action = ImportAction.update
    ∧ (redetectStep [] []
        { productCode := "P1", existingProductId := some "gone",
          action := ImportAction.update }).existingProductId = none
    ∧ (redetectStep [] []
        { productCode := "P1", existingProductId := some "gone",
          action := ImportAction.update }).action = ImportAction.create := by
  have hdet : detectExistingProduct [("p1", { id := "x1", name := "N1", updatedAt := "t" })] []
      "P1" "whatever" = some ({ id := "x1", name := "N1", updatedAt := "t" },
        ExistingMatchType.code) := by decide
  have h1 := redetect_action_semantics.2.1
    [("p1", { id := "x1", name := "N1", updatedAt := "t" })] []
    { productCode := "P1" } { id := "x1", name := "N1", updatedAt := "t" }
    ExistingMatchType.code (by decide) rfl
  have h2 := redetect_action_semantics.2.2.1
    [("p1", { id := "x1", name := "N1", updatedAt := "t" })] []
    { productCode := "P1", existingProductId := some "old", action := ImportAction.update }
    { id := "x1", name := "N1", updatedAt := "t" } ExistingMatchType.code (by decide) rfl
  have h3 := redetect_action_semantics.2.2.2 [] []
    { productCode := "P1", existingProductId := some "gone", action := ImportAction.update }
    (by decide) rfl
  refine ⟨hdet, h1.1, h2, h3.1, ?_⟩
  rw [h3.2.2.2.2.1]
  decide

/-! ## Proposed categories (`buildProposedCategoriesForProducts`) -/

/-- Model of a `ProposedCategory` record. -/
structure ProposedCategory where
  key : String
  path : List String
  label : String
  name : String
  slug : String
  parentExistingId : Option String
  parentKey : Option String
  parentPath : List String
  depth : Nat
deriving DecidableEq, Repr

/-- Model of `buildCategoryIndexByParent`: an outer map keyed by
`parentId ?? 'root'`, each bucket keyed by `name:…` and (for truthy
slugs) `slug:…`. -/
def buildCategoryIndexByParent (categories : List Category) :
    List (String × List (String × Category)) :=
  categories.foldl (fun index c =>
    let parentKey := c.parentId.getD "root"
    let bucket := (assocGet index parentKey).getD []
    let bucket := assocSet bucket ("name:" ++ lowerStr (jsTrim c.name)) c
    let bucket := if c.slug ≠ "" then assocSet bucket ("slug:" ++ lowerStr (jsTrim c.slug)) c
                  else bucket
    assocSet index parentKey bucket) []

/-- Model of `findCategoryInIndex`: name match first, then slug match,
scoped to the bucket of the current parent. -/
def findCategoryInIndex (index : List (String × List (String × Category)))
    (parentId : Option String) (segment : String) : Option Category :=
  match assocGet index (parentId.getD "root") with
  | none => none
  | some bucket =>
    match assocGet bucket ("name:" ++ lowerStr (jsTrim segment)) with
    | some c => some c
    | none =>
      let slugCandidate := slugify segment
      if slugCandidate ≠ "" then assocGet bucket ("slug:" ++ lowerStr slugCandidate)
      else none

/-- The proposal record created on a miss at `segment`, with the walk
state `(parentId, parentPath)` at that point. -/
def mkProposal (parentId : Option String) (parentPath : List String) (segment : String) :
    ProposedCategory :=
  let nextPath := parentPath ++ [segment]
  { key := buildCategoryPathKey nextPath
    path := nextPath
    label := formatCategoryPath nextPath
    name := jsTrim segment
    slug := slugify segment
    parentExistingId := parentId
    parentKey := if parentPath.length > 0 then some (buildCategoryPathKey parentPath) else none
    parentPath := parentPath
    depth := nextPath.length }

/-- Model of the `segments.forEach` walk of one product: on a hit the
walk descends into the existing node; on a miss it inserts a proposal
(first product wins on key collisions) and resets the parent scope. -/
def walkSegments (index : List (String × List (String × Category))) :
    List String → List (String × ProposedCategory) → Option String → List String →
    List (String × ProposedCategory) × Option String × List String
  | [], props, parentId, parentPath => (props, parentId, parentPath)
  | segment :: rest, props, parentId, parentPath =>
    match findCategoryInIndex index parentId segment with
    | some existing =>
      walkSegments index rest props (some existing.id) (parentPath ++ [existing.name])
    | none =>
      let nextPath := parentPath ++ [segment]
      let key := buildCategoryPathKey nextPath
      let props' := if (assocGet props key).isSome then props
                    else assocSet props key (mkProposal parentId parentPath segment)
      walkSegments index rest props' none nextPath

/-- The comparator of the final `.sort`: depth ascending, then label
(`localeCompare` modelled as the standard string order). -/
def proposalLE (a b : ProposedCategory) : Bool :=
  if a.depth = b.depth then decide (a.label ≤ b.label) else decide (a.depth < b.depth)

/-- The proposals map accumulated over all products (the source hoists
the parent index out of the loop; it is a pure value, so inlining it
keeps the same result). -/
def proposalsMapFor (products : List ParsedProduct) (categories : List Category) :
    List (String × ProposedCategory) :=
  products.foldl (fun props product =>
    if product.category = "" ∨ product.categoryId.isSome then props
    else
      let segments := parseCategorySegments product.category
      if segments.isEmpty then props
      else (walkSegments (buildCategoryIndexByParent categories) segments props none []).1) []

/-- Model of `buildProposedCategoriesForProducts`. -/
def buildProposedCategoriesForProducts (products : List ParsedProduct)
    (categories : List Category) : List ProposedCategory :=
  if products.isEmpty then []
  else ((proposalsMapFor products categories).map Prod.snd).mergeSort proposalLE

/-- The chain of proposals generated for the unmatched tail of a path:
the first carries the last matched existing id (and, when the matched
part is nonempty, the key of the matched path); each later one carries
`none` as existing parent and the previous proposal's key. -/
def chainProposals (parentId : Option String) (parentPath : List String) :
    List String → List ProposedCategory
  | [] => []
  | seg :: rest => mkProposal parentId parentPath seg :: chainProposals none (parentPath ++ [seg]) rest

theorem walkSegments_inv (index : List (String × List (String × Category))) :
    ∀ (segs : List String) (props : List (String × ProposedCategory))
      (pid : Option String) (ppath : List String),
      ((props.map Prod.fst).Nodup ∧ ∀ q ∈ props, (Prod.snd q).key = q.1) →
      (((walkSegments index segs props pid ppath).1.map Prod.fst).Nodup
        ∧ ∀ q ∈ (walkSegments index segs props pid ppath).1, (Prod.snd q).key = q.1) := by
  intro segs
  induction segs with
  | nil => intro props pid ppath h; exact h
  | cons seg rest ih =>
    intro props pid ppath h
    rw [walkSegments]
    cases hfind : findCategoryInIndex index pid seg with
    | some existing =>
      simp only [hfind]
      exact ih props (some existing.id) (ppath ++ [existing.name]) h
    | none =>
      simp only [hfind]
      by_cases hmem : (assocGet props (buildCategoryPathKey (ppath ++ [seg]))).isSome
      · rw [if_pos hmem]
        exact ih props none (ppath ++ [seg]) h
      · rw [if_neg hmem]
        refine ih _ none (ppath ++ [seg]) ⟨?_, ?_⟩
        · exact nodup_keys_assocSet props _ _ h.1
        · intro q hq
          rcases mem_assocSet_values props _ _ q hq with hq' | hq'
          · exact h.2 q hq'
          · subst hq'
            rfl

theorem proposalsMapFor_inv (products : List ParsedProduct) (categories : List Category) :
    ((proposalsMapFor products categories).map Prod.fst).Nodup
    ∧ ∀ q ∈ proposalsMapFor products categories, (Prod.snd q).key = q.1 := by
  rw [proposalsMapFor]
  have hgen : ∀ (ps : List ParsedProduct) (props : List (String × ProposedCategory)),
      ((props.map Prod.fst).Nodup ∧ ∀ q ∈ props, (Prod.snd q).key = q.1) →
      (((ps.foldl (fun props product =>
          if product.category = "" ∨ product.categoryId.isSome then props
          else
            let segments := parseCategorySegments product.category
            if segments.isEmpty then props
            else (walkSegments (buildCategoryIndexByParent categories) segments props none []).1)
          props).map Prod.fst).Nodup
        ∧ ∀ q ∈ ps.foldl (fun props product =>
            if product.category = "" ∨ product.categoryId.isSome then props
            else
              let segments := parseCategorySegments product.category
              if segments.isEmpty then props
              else (walkSegments (buildCategoryIndexByParent categories) segments props none
                []).1) props, (Prod.snd q).key = q.1) := by
    intro ps
    induction ps with
    | nil => intro props h; exact h
    | cons p rest ih =>
      intro props h
      rw [List.foldl_cons]
      apply ih
      by_cases hskip : p.category = "" ∨ p.categoryId.isSome
      · rw [if_pos hskip]
        exact h
      · rw [if_neg hskip]
        by_cases hsegs : (parseCategorySegments p.category).isEmpty
        · simp only [hsegs, if_true]
          exact h
        · simp only [hsegs, if_false]
          exact walkSegments_inv (buildCategoryIndexByParent categories)
            (parseCategorySegments p.category) props none [] h
  exact hgen products [] ⟨by simp, by simp⟩

theorem proposalLE_trans (a b c : ProposedCategory)
    (hab : proposalLE a b = true) (hbc : proposalLE b c = true) : proposalLE a c = true := by
  rw [proposalLE] at hab hbc ⊢
  by_cases h1 : a.depth = b.depth
  · rw [if_pos h1] at hab
    by_cases h2 : b.depth = c.depth
    · rw [if_pos h2] at hbc
      rw [if_pos (h1.trans h2)]
      have := le_trans (of_decide_eq_true hab) (of_decide_eq_true hbc)
      exact decide_eq_true this
    · rw [if_neg h2] at hbc
      have hlt : b.depth < c.depth := of_decide_eq_true hbc
      rw [if_neg (show ¬ a.depth = c.depth by omega)]
      exact decide_eq_true (show a.depth < c.depth by omega)
  · rw [if_neg h1] at hab
    have hlt1 : a.depth < b.depth := of_decide_eq_true hab
    by_cases h2 : b.depth = c.depth
    · rw [if_pos h2] at hbc
      rw [if_neg (by omega)]
      exact decide_eq_true (by omega)
    · rw [if_neg h2] at hbc
      have hlt2 : b.depth < c.depth := of_decide_eq_true hbc
      rw [if_neg (by omega)]
      exact decide_eq_true (by omega)

theorem proposalLE_total (a b : ProposedCategory) :
    (proposalLE a b || proposalLE b a) = true := by
  rw [proposalLE, proposalLE]
  by_cases h : a.depth = b.depth
  · rw [if_pos h, if_pos h.symm]
    rcases le_total a.label b.label with hle | hle
    · simp [hle]
    · simp [hle]
  · rw [if_neg h, if_neg (fun hc => h hc.symm)]
    rcases Nat.lt_or_ge a.depth b.depth with hlt | hge
    · simp [hlt]
    · have : b.depth < a.depth := by omega
      simp [this]

theorem mem_squashSepsGo {c : Char} :
    ∀ (b : Bool) (l : List Char), c ∈ squashSepsGo b l → c = '-' ∨ c ∈ l := by
  intro b l
  induction l generalizing b with
  | nil => intro h; simp [squashSepsGo] at h
  | cons x xs ih =>
    intro h
    rw [squashSepsGo] at h
    by_cases hsep : slugSep x = true
    · rw [if_pos hsep] at h
      cases b with
      | true =>
        rcases ih true h with h | h
        · exact Or.inl h
        · exact Or.inr (List.mem_cons_of_mem x h)
      | false =>
        rcases List.mem_cons.mp h with h | h
        · exact Or.inl h
        · rcases ih true h with h | h
          · exact Or.inl h
          · exact Or.inr (List.mem_cons_of_mem x h)
    · rw [if_neg hsep] at h
      rcases List.mem_cons.mp h with h | h
      · exact Or.inr (by simp [h])
      · rcases ih false h with h | h
        · exact Or.inl h
        · exact Or.inr (List.mem_cons_of_mem x h)

theorem mem_stripHyphens {c : Char} {l : List Char} (h : c ∈ stripHyphens l) : c ∈ l := by
  rw [stripHyphens, List.mem_reverse] at h
  have h1 := (List.dropWhile_sublist (l := (l.dropWhile (· = '-')).reverse) (· = '-')).subset h
  rw [List.mem_reverse] at h1
  exact (List.dropWhile_sublist (l := l) (· = '-')).subset h1

theorem slugify_no_gt (s : String) : '>' ∉ (slugify s).data := by
  intro hmem
  have h1 : '>' ∈ stripHyphens (squashSeps (trimChars (s.data.map Char.toLower)
      |>.filter slugKeep)) := hmem
  have h2 := mem_stripHyphens h1
  rw [squashSeps] at h2
  rcases mem_squashSepsGo false _ h2 with h | h
  · exact absurd h (by decide)
  · have h4 := List.of_mem_filter h
    exact absurd h4 (by decide)

theorem count_joinStr_gt :
    ∀ (parts : List String), (∀ p ∈ parts, '>' ∉ p.data) → parts ≠ [] →
      (joinStr ">" parts).data.count '>' = parts.length - 1 := by
  intro parts
  induction parts with
  | nil => intro _ h; exact absurd rfl h
  | cons s rest ih =>
    intro hfree _
    cases rest with
    | nil =>
      show (joinStr ">" [s]).data.count '>' = 0
      rw [joinStr]
      exact List.count_eq_zero.mpr (hfree s (by simp))
    | cons t rs =>
      rw [joinStr_cons_cons, String.data_append, String.data_append, List.count_append,
        List.count_append]
      rw [ih (fun p hp => hfree p (List.mem_cons_of_mem s hp)) (by simp)]
      rw [List.count_eq_zero.mpr (hfree s (by simp))]
      show 0 + (([ '>' ].count '>') : Nat) + ((t :: rs).length - 1) = (s :: t :: rs).length - 1
      simp
      omega

theorem buildCategoryPathKey_ne_of_length (l₁ l₂ : List String)
    (h1 : l₁ ≠ []) (h2 : l₂ ≠ []) (hlen : l₁.length ≠ l₂.length) :
    buildCategoryPathKey l₁ ≠ buildCategoryPathKey l₂ := by
  intro heq
  have hc1 := count_joinStr_gt (l₁.map normalizeCategorySegment)
    (by
      intro p hp
      obtain ⟨x, _, hx⟩ := List.mem_map.mp hp
      subst hx
      exact slugify_no_gt x) (by simpa using h1)
  have hc2 := count_joinStr_gt (l₂.map normalizeCategorySegment)
    (by
      intro p hp
      obtain ⟨x, _, hx⟩ := List.mem_map.mp hp
      subst hx
      exact slugify_no_gt x) (by simpa using h2)
  rw [buildCategoryPathKey, buildCategoryPathKey] at heq
  rw [heq] at hc1
  rw [hc2] at hc1
  simp only [List.length_map] at hc1
  have hl1 : 1 ≤ l₁.length := List.length_pos.mpr h1
  have hl2 : 1 ≤ l₂.length := List.length_pos.mpr h2
  omega

theorem walkSegments_append (index : List (String × List (String × Category))) :
    ∀ (l₁ l₂ : List String) (props : List (String × ProposedCategory))
      (pid : Option String) (ppath : List String),
      walkSegments index (l₁ ++ l₂) props pid ppath
        = walkSegments index l₂ (walkSegments index l₁ props pid ppath).1
            (walkSegments index l₁ props pid ppath).2.1
            (walkSegments index l₁ props pid ppath).2.2 := by
  intro l₁
  induction l₁ with
  | nil => intro l₂ props pid ppath; rfl
  | cons seg rest ih =>
    intro l₂ props pid ppath
    rw [List.cons_append, walkSegments, walkSegments]
    cases hfind : findCategoryInIndex index pid seg with
    | some existing =>
      simp only [hfind]
      exact ih l₂ props (some existing.id) (ppath ++ [existing.name])
    | none =>
      simp only [hfind]
      exact ih l₂ _ none (ppath ++ [seg])

theorem walkChainNone (index : List (String × List (String × Category))) :
    ∀ (miss : List String) (props : List (String × ProposedCategory)) (ppath : List String),
      (∀ s ∈ miss, findCategoryInIndex index none s = none) →
      (∀ j, j < miss.length →
        assocGet props (buildCategoryPathKey (ppath ++ miss.take (j + 1))) = none) →
      (walkSegments index miss props none ppath).1
        = props ++ (chainProposals none ppath miss).map (fun q => (q.key, q)) := by
  intro miss
  induction miss with
  | nil =>
    intro props ppath _ _
    simp [walkSegments, chainProposals]
  | cons m₀ mrest ih =>
    intro props ppath hfinds habsent
    have hfind : findCategoryInIndex index none m₀ = none := hfinds m₀ (by simp)
    have habs0 : assocGet props (buildCategoryPathKey (ppath ++ [m₀])) = none := by
      have := habsent 0 (by simp)
      simpa using this
    rw [walkSegments]
    simp only [hfind]
    rw [if_neg (by simp [habs0])]
    rw [assocSet_of_get_none props _ _ habs0]
    have habsent' : ∀ j, j < mrest.length →
        assocGet (props ++ [(buildCategoryPathKey (ppath ++ [m₀]), mkProposal none ppath m₀)])
          (buildCategoryPathKey ((ppath ++ [m₀]) ++ mrest.take (j + 1))) = none := by
      intro j hj
      have hpath : (ppath ++ [m₀]) ++ mrest.take (j + 1)
          = ppath ++ (m₀ :: mrest).take (j + 2) := by
        simp [List.append_assoc]
      have habsj : assocGet props
          (buildCategoryPathKey ((ppath ++ [m₀]) ++ mrest.take (j + 1))) = none := by
        rw [hpath]
        exact habsent (j + 1) (by simpa using hj)
      rw [assocGet_append_right props _ _ habsj]
      have hne : buildCategoryPathKey (ppath ++ [m₀])
          ≠ buildCategoryPathKey (ppath ++ m₀ :: mrest.take (j + 1)) := by
        apply buildCategoryPathKey_ne_of_length
        · simp
        · simp
        · simp only [List.length_append, List.length_cons, List.length_take,
            List.length_nil]
          omega
      simp [assocGet, hne]
    rw [ih (props ++ [(buildCategoryPathKey (ppath ++ [m₀]), mkProposal none ppath m₀)])
      (ppath ++ [m₀]) (fun s hs => hfinds s (List.mem_cons_of_mem m₀ hs)) habsent']
    rw [chainProposals]
    simp only [List.map_cons, List.append_assoc]
    rfl

theorem walkChainStep (index : List (String × List (String × Category)))
    (m₀ : String) (mrest : List String) (props : List (String × ProposedCategory))
    (pid : Option String) (ppath : List String)
    (hfind : findCategoryInIndex index pid m₀ = none)
    (habs : assocGet props (buildCategoryPathKey (ppath ++ [m₀])) = none) :
    walkSegments index (m₀ :: mrest) props pid ppath
      = walkSegments index mrest
          (props ++ [(buildCategoryPathKey (ppath ++ [m₀]), mkProposal pid ppath m₀)])
          none (ppath ++ [m₀]) := by
  rw [walkSegments]
  simp only [hfind]
  rw [if_neg (by simp [habs])]
  rw [assocSet_of_get_none props _ _ habs]

theorem chainProposals_depths :
    ∀ (miss : List String) (pid : Option String) (ppath : List String),
      (chainProposals pid ppath miss).map (fun q => q.depth)
        = List.range' (ppath.length + 1) miss.length := by
  intro miss
  induction miss with
  | nil => intro pid ppath; rfl
  | cons seg rest ih =>
    intro pid ppath
    rw [chainProposals, List.map_cons, List.length_cons, List.range'_succ,
      ih none (ppath ++ [seg])]
    have h1 : (mkProposal pid ppath seg).depth = ppath.length + 1 := by
      rw [mkProposal]
      simp
    rw [h1]
    have h2 : (ppath ++ [seg]).length + 1 = ppath.length + 1 + 1 := by simp
    rw [h2]

theorem chainProposals_sorted (miss : List String) (pid : Option String) (ppath : List String) :
    (chainProposals pid ppath miss).Pairwise (fun a b => proposalLE a b = true) := by
  have hdepths := chainProposals_depths miss pid ppath
  have hlt : ((chainProposals pid ppath miss).map (fun q => q.depth)).Pairwise (· < ·) := by
    rw [hdepths]
    exact List.pairwise_lt_range' _ _ 1
  rw [List.pairwise_map] at hlt
  refine hlt.imp ?_
  intro a b hab
  rw [proposalLE, if_neg (by omega)]
  exact decide_eq_true hab

/-- C3 counterexample: after a miss the walk resets its scope to the
root bucket, so a later segment whose name matches an existing root
category is consumed as a hit instead of becoming a proposal.  With one
product whose path is `A > B` and one existing root category named `B`,
only the proposal keyed `a` (for segment `A`) is returned, although the
claimed chain would also propose `B` under key `a>b`. -/
theorem buildProposedCategories_chain_counterexample :
    (buildProposedCategoriesForProducts
        [{ productCode := "p", category := "A > B" }]
        [{ id := "cat-b", name := "B", slug := "b", parentId := none, sortOrder := 0 }]).map
      (fun q => q.key) = ["a"]
    ∧ buildCategoryPathKey ["A", "B"] = "a>b" := by
  constructor
  · have hmap : proposalsMapFor [{ productCode := "p", category := "A > B" }]
        [{ id := "cat-b", name := "B", slug := "b", parentId := none, sortOrder := 0 }]
        = [("a", mkProposal none [] "A")] := by decide
    rw [buildProposedCategoriesForProducts, if_neg (by decide), hmap]
    simp only [List.map_cons, List.map_nil]
    rw [List.mergeSort_of_sorted
      (show List.Pairwise (fun a b => proposalLE a b = true) [mkProposal none [] "A"] by simp)]
    decide
  · decide

/-- C3 (amended): the returned proposal list is sorted by depth then
label, its keys (full normalized paths) are duplicate-free across all
products, and for a single product whose path splits into a matched
prefix followed by a first missed segment and a tail that matches
nothing at root scope, the result is exactly the proposal chain: the
first proposal carries the last matched existing id (and the matched
path's key when the matched prefix is nonempty), and each later
proposal carries no existing parent and the previous proposal's key. -/
theorem proposed_categories_amended
    (products : List ParsedProduct) (categories : List Category)
    (p : ParsedProduct) (matched : List String) (m₀ : String) (mrest : List String)
    (lastPid : Option String) (matchedNames : List String)
    (hp1 : p.categoryId = none) (hp2 : p.category ≠ "")
    (hsegs : parseCategorySegments p.category = matched ++ m₀ :: mrest)
    (hmatched : walkSegments (buildCategoryIndexByParent categories) matched [] none []
      = ([], lastPid, matchedNames))
    (hmiss : findCategoryInIndex (buildCategoryIndexByParent categories) lastPid m₀ = none)
    (hrest : ∀ s ∈ mrest,
      findCategoryInIndex (buildCategoryIndexByParent categories) none s = none) :
    List.Pairwise (fun a b => proposalLE a b = true)
      (buildProposedCategoriesForProducts products categories)
    ∧ ((buildProposedCategoriesForProducts products categories).map (fun q => q.key)).Nodup
    ∧ buildProposedCategoriesForProducts [p] categories
        = chainProposals lastPid matchedNames (m₀ :: mrest) := by
  refine ⟨?_, ?_, ?_⟩
  · rw [buildProposedCategoriesForProducts]
    by_cases hempty : products.isEmpty = true
    · rw [if_pos hempty]
      exact List.Pairwise.nil
    · rw [if_neg hempty]
      exact List.sorted_mergeSort proposalLE_trans proposalLE_total _
  · have hinv := proposalsMapFor_inv products categories
    have hkeys : ((proposalsMapFor products categories).map Prod.snd).map (fun q => q.key)
        = (proposalsMapFor products categories).map Prod.fst := by
      rw [List.map_map]
      exact List.map_congr_left (fun q hq => hinv.2 q hq)
    rw [buildProposedCategoriesForProducts]
    by_cases hempty : products.isEmpty = true
    · rw [if_pos hempty]
      simp
    · rw [if_neg hempty]
      have hperm := (List.mergeSort_perm
        ((proposalsMapFor products categories).map Prod.snd) proposalLE).map (fun q => q.key)
      rw [hkeys] at hperm
      exact hperm.nodup_iff.mpr hinv.1
  · have hnotskip : ¬(p.category = "" ∨ p.categoryId.isSome = true) := by
      rintro (h | h)
      · exact hp2 h
      · rw [hp1] at h
        simp at h
    rw [buildProposedCategoriesForProducts, if_neg (by simp), proposalsMapFor]
    rw [List.foldl_cons, List.foldl_nil]
    rw [if_neg hnotskip]
    simp only [hsegs]
    rw [if_neg (by simp)]
    rw [walkSegments_append, hmatched]
    dsimp only
    rw [walkChainStep (buildCategoryIndexByParent categories) m₀ mrest [] lastPid matchedNames
      hmiss rfl]
    rw [List.nil_append]
    have habsent : ∀ j, j < mrest.length →
        assocGet [(buildCategoryPathKey (matchedNames ++ [m₀]),
            mkProposal lastPid matchedNames m₀)]
          (buildCategoryPathKey ((matchedNames ++ [m₀]) ++ mrest.take (j + 1))) = none := by
      intro j hj
      have hne : buildCategoryPathKey (matchedNames ++ [m₀])
          ≠ buildCategoryPathKey (matchedNames ++ m₀ :: mrest.take (j + 1)) := by
        apply buildCategoryPathKey_ne_of_length
        · simp
        · simp
        · simp only [List.length_append, List.length_cons, List.length_take, List.length_nil]
          omega
      simp [assocGet, hne]
    rw [walkChainNone (buildCategoryIndexByParent categories) mrest
      [(buildCategoryPathKey (matchedNames ++ [m₀]), mkProposal lastPid matchedNames m₀)]
      (matchedNames ++ [m₀]) hrest habsent]
    have hsndmap : ∀ l : List ProposedCategory,
        (l.map (fun q => (q.key, q))).map Prod.snd = l := by
      intro l
      induction l with
      | nil => rfl
      | cons x xs ih => simp [ih]
    rw [List.map_append, hsndmap]
    simp only [List.map_cons, List.map_nil]
    rw [List.singleton_append]
    rw [show mkProposal lastPid matchedNames m₀
          :: chainProposals none (matchedNames ++ [m₀]) mrest
        = chainProposals lastPid matchedNames (m₀ :: mrest) from rfl]
    exact List.mergeSort_of_sorted (chainProposals_sorted (m₀ :: mrest) lastPid matchedNames)

theorem proposed_categories_amended_witness :
    buildProposedCategoriesForProducts [{ productCode := "p", category := "A > B" }] []
      = chainProposals none [] ["A", "B"] :=
  (proposed_categories_amended [{ productCode := "p", category := "A > B" }] []
    { productCode := "p", category := "A > B" } [] "A" ["B"] none []
    rfl (by decide) (by decide) rfl (by decide) (by decide)).2.2

/-! ## Import orchestrator (`handleImport`, migrate page lines 1216-1713) -/

/-- Model of a stored product-variant document, restricted to the
fields the write phase reads back (`$id`, `productId`, `businessId`). -/
structure VariantDoc where
  id : String
  productId : String
  businessId : String
deriving DecidableEq, Repr

/-- Model of the remote state the write phase touches, together with
the `ID.unique()` generator modelled as a counter producing
`doc-0`, `doc-1`, …. -/
structure ImportStore where
  nextId : Nat
  variantDocs : List VariantDoc
deriving DecidableEq, Repr

/-- The id produced by the `n`-th call of `ID.unique()`. -/
def freshId (n : Nat) : String := "doc-" ++ toString n

/-- The database operations the orchestrator issues, in order. -/
inductive DBOp where
  | createCategoryDoc (id : String) (name : String) (slug : String)
      (parentId : Option String) (sortOrder : Int)
  | createProductDoc (id : String)
  | updateProductDoc (id : String)
  | listVariantDocs (productId : String) (businessScoped : Bool)
  | deleteVariantDoc (id : String)
  | createVariantDoc (id : String) (productId : String) (businessId : String)
deriving DecidableEq, Repr

/-- Whether an operation creates, updates or deletes a product or
variant document (listing is a read). -/
def writesProductOrVariant : DBOp → Bool
  | .createProductDoc _ => true
  | .updateProductDoc _ => true
  | .deleteVariantDoc _ => true
  | .createVariantDoc _ _ _ => true
  | _ => false

/-- Whether an operation deletes a variant document. -/
def isVariantDelete : DBOp → Bool
  | .deleteVariantDoc _ => true
  | _ => false

/-- Whether an operation creates a product document. -/
def isProductCreate : DBOp → Bool
  | .createProductDoc _ => true
  | _ => false

/-- Model of `buildCategorySlugMap`: lower-cased slug to category, for
categories with a truthy slug. -/
def buildCategorySlugMap (categories : List Category) : List (String × Category) :=
  categories.foldl (fun m c => if c.slug ≠ "" then assocSet m (lowerStr c.slug) c else m) []

/-- Model of `buildCategoryNameMap`: lower-cased name to category. -/
def buildCategoryNameMap (categories : List Category) : List (String × Category) :=
  categories.foldl (fun m c => assocSet m (lowerStr c.name) c) []

/-- Model of `ResolvedCategory`. -/
structure ResolvedCategory where
  id : String
  slug : Option String
  path : List String
  label : String
  ancestry : List String
  matchType : CategoryMatchType
deriving DecidableEq, Repr

/-- The optional slug of a category (`slug ?? null`, with the empty
string standing for a missing slug). -/
def catSlugOpt (c : Category) : Option String :=
  if c.slug = "" then none else some c.slug

/-- Model of `resolveCategoryFromMaps`: try the slugified raw value
against the slug map, then the lower-cased trimmed value against the
name map; path, ancestry and label come from the id lookup. -/
def resolveCategoryFromMaps (rawValue : String)
    (lookup slugMap nameMap : List (String × Category)) : Option ResolvedCategory :=
  if rawValue = "" then none
  else
    let trimmed := jsTrim rawValue
    if trimmed = "" then none
    else
      let slugValue := slugify trimmed
      match (if slugValue ≠ "" then assocGet slugMap slugValue else none) with
      | some slugMatch =>
        let path := getCategoryPath slugMatch.id lookup
        let ancestry := getCategoryAncestry slugMatch.id lookup
        let label := if path.length > 0 then formatCategoryPath path else slugMatch.name
        some { id := slugMatch.id, slug := catSlugOpt slugMatch, path := path, label := label,
               ancestry := ancestry, matchType := .slug }
      | none =>
        match assocGet nameMap (lowerStr trimmed) with
        | some nameMatch =>
          let path := getCategoryPath nameMatch.id lookup
          let ancestry := getCategoryAncestry nameMatch.id lookup
          let label := if path.length > 0 then formatCategoryPath path else nameMatch.name
          some { id := nameMatch.id, slug := catSlugOpt nameMatch, path := path, label := label,
                 ancestry := ancestry, matchType := .name }
        | none => none

/-- Model of the `for (const segment of segments)` loop of
`canResolveCategoryForProduct`: a hit descends, a miss must be a
selected proposal key or the product is unresolvable. -/
def canResolveGo (index : List (String × List (String × Category)))
    (selectedKeys : List String) :
    List String → Option String → List String → Bool
  | [], _, _ => true
  | segment :: rest, parentId, parentPath =>
    match findCategoryInIndex index parentId segment with
    | some existing =>
      canResolveGo index selectedKeys rest (some existing.id) (parentPath ++ [existing.name])
    | none =>
      let key := buildCategoryPathKey (parentPath ++ [segment])
      if selectedKeys.contains key then
        canResolveGo index selectedKeys rest none (parentPath ++ [segment])
      else false

/-- Model of `canResolveCategoryForProduct` from `handleImport`'s
pre-validation. -/
def canResolveCategoryForProduct (index : List (String × List (String × Category)))
    (selectedKeys : List String) (product : ParsedProduct) : Bool :=
  if product.categoryId.getD "" ≠ "" then true
  else if jsTrim product.category = "" then true
  else
    let segments := parseCategorySegments product.category
    if segments.isEmpty then true
    else canResolveGo index selectedKeys segments none []

/-- Model of `addCategoryToIndex` inside `handleImport` (same bucket
layout as `buildCategoryIndexByParent`). -/
def addCategoryToIndex (index : List (String × List (String × Category)))
    (c : Category) : List (String × List (String × Category)) :=
  let parentKey := c.parentId.getD "root"
  let bucket := (assocGet index parentKey).getD []
  let bucket := assocSet bucket ("name:" ++ lowerStr (jsTrim c.name)) c
  let bucket := if c.slug ≠ "" then assocSet bucket ("slug:" ++ lowerStr (jsTrim c.slug)) c
                else bucket
  assocSet index parentKey bucket

/-- Model of `value.replace(/\s+/g, '-')`: each maximal whitespace run
becomes one hyphen. -/
def hyphenateWsGo : Bool → List Char → List Char
  | _, [] => []
  | inRun, c :: rest =>
    if c.isWhitespace then
      if inRun then hyphenateWsGo true rest
      else '-' :: hyphenateWsGo true rest
    else c :: hyphenateWsGo false rest

/-- String wrapper of `hyphenateWsGo`. -/
def hyphenateWs (s : String) : String := String.mk (hyphenateWsGo false s.data)

/-- The state threaded through the category-creation loop. -/
structure CatCreateState where
  index : List (String × List (String × Category))
  createdCategoryIds : List (String × String)
  createdCategories : List Category
  nextId : Nat
  ops : List DBOp
deriving Repr

/-- One iteration of the `for (const proposal of categoriesToCreate)`
loop.  `ID.unique()` is modelled by the fresh-id counter, the created
document echoes its payload, and the `category-` + `Date.now()`
last-resort slug is modelled with a fixed token (only its truthiness
matters). -/
def createCategoryStep (st : CatCreateState) (proposal : ProposedCategory) : CatCreateState :=
  let pe := proposal.parentExistingId.getD ""
  let pk := proposal.parentKey.getD ""
  let parentId : Option String :=
    if pe ≠ "" then some pe
    else if pk ≠ "" then assocGet st.createdCategoryIds pk
    else none
  match findCategoryInIndex st.index parentId proposal.name with
  | some existing =>
    { st with createdCategoryIds := assocSet st.createdCategoryIds proposal.key existing.id }
  | none =>
    let fallbackSlug :=
      if proposal.slug ≠ "" then proposal.slug
      else if slugify proposal.name ≠ "" then slugify proposal.name
      else if hyphenateWs (lowerStr (jsTrim proposal.name)) ≠ "" then
        hyphenateWs (lowerStr (jsTrim proposal.name))
      else "category-0"
    let sortOrder : Int := (proposal.depth : Int) * 100
    let newCat : Category :=
      { id := freshId st.nextId
        name := proposal.name
        slug := fallbackSlug
        parentId := parentId
        sortOrder := sortOrder }
    { index := addCategoryToIndex st.index newCat
      createdCategoryIds := assocSet st.createdCategoryIds proposal.key newCat.id
      createdCategories := st.createdCategories ++ [newCat]
      nextId := st.nextId + 1
      ops := st.ops ++ [DBOp.createCategoryDoc newCat.id newCat.name newCat.slug parentId sortOrder] }

/-- Stable insertion into a depth-sorted list. -/
def orderedInsertByDepth (a : ProposedCategory) :
    List ProposedCategory → List ProposedCategory
  | [] => [a]
  | b :: l => if a.depth ≤ b.depth then a :: b :: l else b :: orderedInsertByDepth a l

/-- Stable ascending-by-depth sort, modelling
`categoriesToCreate.sort((a, b) => a.depth - b.depth)` (JS sort is
stable). -/
def sortByDepth : List ProposedCategory → List ProposedCategory
  | [] => []
  | a :: l => orderedInsertByDepth a (sortByDepth l)

/-- The keys selected for creation (`selectedCategoryKeys`). -/
def selectedKeysFor (proposedCategories : List ProposedCategory)
    (choices : String → Bool) : List String :=
  (proposedCategories.filter (fun pr => choices pr.key)).map (fun pr => pr.key)

/-- `categoriesSelectedForCreation` sorted ascending by depth
(`categoriesToCreate`). -/
def categoriesToCreateFor (proposedCategories : List ProposedCategory)
    (choices : String → Bool) : List ProposedCategory :=
  sortByDepth (proposedCategories.filter (fun pr => choices pr.key))

/-- The products surviving the skip filter (`productsToProcess`). -/
def productsToProcessFor (parsedData : List ParsedProduct) : List ParsedProduct :=
  parsedData.filter (fun p => p.action != ImportAction.skip)

/-- The full run of the category-creation loop. -/
def runCategoryCreation (toCreate : List ProposedCategory)
    (index0 : List (String × List (String × Category))) (nextId0 : Nat) : CatCreateState :=
  toCreate.foldl createCategoryStep
    { index := index0, createdCategoryIds := [], createdCategories := [], nextId := nextId0,
      ops := [] }

/-- Model of the `productsToProcess.map(...)` re-resolution step: an
id match keeps the id and refreshes the derived fields, otherwise the
raw category string is re-resolved against the flat maps, and on
failure every category reference field is cleared. -/
def reResolveProduct (lookup slugMap nameMap : List (String × Category))
    (product : ParsedProduct) : ParsedProduct :=
  let byId : Option ResolvedCategory :=
    match product.categoryId with
    | some cid =>
      if cid ≠ "" then
        match assocGet lookup cid with
        | some matched =>
          let path := getCategoryPath cid lookup
          let ancestry := getCategoryAncestry cid lookup
          let label := if path.length > 0 then formatCategoryPath path else matched.name
          some { id := matched.id, slug := catSlugOpt matched, path := path, label := label,
                 ancestry := ancestry, matchType := product.categoryMatchType.getD .name }
        | none => none
      else none
    | none => none
  let resolved : Option ResolvedCategory :=
    match byId with
    | some r => some r
    | none => resolveCategoryFromMaps product.category lookup slugMap nameMap
  match resolved with
  | some r =>
    { product with
      categoryId := some r.id
      categorySlug := r.slug
      categoryPath := some r.path
      categoryPathLabel := some r.label
      categoryAncestors := some r.ancestry
      categoryMatchType := some r.matchType }
  | none =>
    { product with
      categoryId := none
      categorySlug := none
      categoryPath := none
      categoryPathLabel := none
      categoryAncestors := none
      categoryMatchType := none }

/-- The re-resolved product list (`productsReadyForImport`). -/
def productsReadyFor (parsedData : List ParsedProduct) (categories : List Category)
    (proposedCategories : List ProposedCategory) (choices : String → Bool)
    (nextId0 : Nat) : List ParsedProduct :=
  let catSt := runCategoryCreation (categoriesToCreateFor proposedCategories choices)
    (buildCategoryIndexByParent categories) nextId0
  let after := categories ++ catSt.createdCategories
  (productsToProcessFor parsedData).map
    (reResolveProduct (buildCategoryMap after) (buildCategorySlugMap after)
      (buildCategoryNameMap after))

/-- The products still category-less after the creation plan
(`unresolvedAfterCreation`). -/
def unresolvedAfterCreationFor (parsedData : List ParsedProduct) (categories : List Category)
    (proposedCategories : List ProposedCategory) (choices : String → Bool)
    (nextId0 : Nat) : List ParsedProduct :=
  (productsReadyFor parsedData categories proposedCategories choices nextId0).filter
    (fun p => jsTrim p.category != "" && p.categoryId.getD "" == "")

/-- The shared variant-creation tail of `importProduct`: one
`createDocument` per draft, in order. -/
def createVariantsFor (businessId productId : String) :
    ImportStore → List VariantDraft → ImportStore × List DBOp
  | st, [] => (st, [])
  | st, _ :: rest =>
    let vid := freshId st.nextId
    let st1 : ImportStore :=
      { nextId := st.nextId + 1
        variantDocs :=
          st.variantDocs ++ [{ id := vid, productId := productId, businessId := businessId }] }
    let next := createVariantsFor businessId productId st1 rest
    (next.1, DBOp.createVariantDoc vid productId businessId :: next.2)

/-- Model of `importProduct` for one product.  The update path updates
the existing document, lists that product's variants scoped to the
importing business (falling back to an unscoped listing when the
scoped one is empty, both limited to 200), deletes each listed
variant, and runs the shared creation tail; every other product is
created fresh first. -/
def importProductModel (businessId : String) (store : ImportStore)
    (product : ParsedProduct) : ImportStore × List DBOp :=
  if product.action = ImportAction.update ∧ product.existingProductId.getD "" ≠ "" then
    let pid := product.existingProductId.getD ""
    let scopedDocs := (store.variantDocs.filter
      (fun v => v.productId == pid && v.businessId == businessId)).take 200
    let listed := if scopedDocs.isEmpty
      then (store.variantDocs.filter (fun v => v.productId == pid)).take 200
      else scopedDocs
    let listOps := if scopedDocs.isEmpty
      then [DBOp.listVariantDocs pid true, DBOp.listVariantDocs pid false]
      else [DBOp.listVariantDocs pid true]
    let deleteOps := listed.map (fun v => DBOp.deleteVariantDoc v.id)
    let remaining := store.variantDocs.filter
      (fun v => !(listed.map (fun w => w.id)).contains v.id)
    let afterCreate := createVariantsFor businessId pid
      { nextId := store.nextId, variantDocs := remaining } product.variants
    (afterCreate.1, DBOp.updateProductDoc pid :: (listOps ++ deleteOps ++ afterCreate.2))
  else
    let pidNew := freshId store.nextId
    let afterCreate := createVariantsFor businessId pidNew
      { nextId := store.nextId + 1, variantDocs := store.variantDocs } product.variants
    (afterCreate.1, DBOp.createProductDoc pidNew :: afterCreate.2)

/-- How a run of `handleImport` ends. -/
inductive ImportOutcome where
  | abortedNoData
  | abortedNoSelection
  | abortedUnresolvedPlan (offending : List ParsedProduct)
  | abortedUnresolvedAfterCreation (offending : List ParsedProduct)
  | completed (total : Nat)
deriving DecidableEq, Repr

/-- A run of `handleImport`: its outcome and the ordered operation
trace. -/
structure ImportRun where
  outcome : ImportOutcome
  ops : List DBOp
deriving DecidableEq, Repr

/-- Model of `handleImport` from the data checks onwards.  The demo,
auth and confirm guards are environment checks before any state is
read; the write phase runs `importProduct` once per ready product in
order (the rate-limit engine, characterised separately, processes
items in order when `parallel = 1` and only interleaves sleeps and
progress calls). -/
def handleImportModel (businessId : String) (parsedData : List ParsedProduct)
    (categories : List Category) (proposedCategories : List ProposedCategory)
    (choices : String → Bool) (store0 : ImportStore) : ImportRun :=
  if parsedData.isEmpty then { outcome := .abortedNoData, ops := [] }
  else
    let toProcess := productsToProcessFor parsedData
    if toProcess.isEmpty then { outcome := .abortedNoSelection, ops := [] }
    else
      let index0 := buildCategoryIndexByParent categories
      let selKeys := selectedKeysFor proposedCategories choices
      let unresolvedPlan := toProcess.filter
        (fun p => !(canResolveCategoryForProduct index0 selKeys p))
      if !unresolvedPlan.isEmpty then
        { outcome := .abortedUnresolvedPlan unresolvedPlan, ops := [] }
      else
        let catSt := runCategoryCreation (categoriesToCreateFor proposedCategories choices)
          index0 store0.nextId
        let ready := productsReadyFor parsedData categories proposedCategories choices
          store0.nextId
        let unresolved := ready.filter
          (fun p => jsTrim p.category != "" && p.categoryId.getD "" == "")
        if !unresolved.isEmpty then
          { outcome := .abortedUnresolvedAfterCreation unresolved, ops := catSt.ops }
        else
          let writeRes := ready.foldl
            (fun acc p =>
              let next := importProductModel businessId acc.1 p
              (next.1, acc.2 ++ next.2))
            (({ nextId := catSt.nextId, variantDocs := store0.variantDocs } : ImportStore),
              ([] : List DBOp))
          { outcome := .completed ready.length, ops := catSt.ops ++ writeRes.2 }

theorem createCategoryStep_ops_subset (st : CatCreateState) (pr : ProposedCategory) :
    ∀ op ∈ (createCategoryStep st pr).ops, op ∈ st.ops ∨ writesProductOrVariant op = false := by
  intro op hop
  rw [createCategoryStep] at hop
  split at hop
  · exact Or.inl hop
  · rcases List.mem_append.mp hop with h | h
    · exact Or.inl h
    · rw [List.mem_singleton.mp h]
      exact Or.inr rfl

theorem runCategoryCreation_ops_category (toCreate : List ProposedCategory)
    (index0 : List (String × List (String × Category))) (n : Nat) :
    ∀ op ∈ (runCategoryCreation toCreate index0 n).ops, writesProductOrVariant op = false := by
  rw [runCategoryCreation]
  have hgen : ∀ (l : List ProposedCategory) (st : CatCreateState),
      (∀ op ∈ st.ops, writesProductOrVariant op = false) →
      ∀ op ∈ (l.foldl createCategoryStep st).ops, writesProductOrVariant op = false := by
    intro l
    induction l with
    | nil => intro st h; exact h
    | cons pr rest ih =>
      intro st h
      rw [List.foldl_cons]
      apply ih
      intro op hop
      rcases createCategoryStep_ops_subset st pr op hop with h' | h'
      · exact h op h'
      · exact h'
  refine hgen toCreate _ ?_
  intro op hop
  simp at hop

/-- C5: when, after the category-creation phase and the flat
re-resolution, some selected product still has a non-empty raw
category string but no resolved category id, the run aborts with the
offending products listed, and the operation trace holds only
category-document creations: no product or variant document has been
created, updated or deleted. -/
theorem import_aborts_before_product_writes
    (businessId : String) (parsedData : List ParsedProduct) (categories : List Category)
    (proposedCategories : List ProposedCategory) (choices : String → Bool)
    (store0 : ImportStore)
    (hdata : parsedData ≠ [])
    (hsel : productsToProcessFor parsedData ≠ [])
    (hplan : (productsToProcessFor parsedData).filter
      (fun p => !(canResolveCategoryForProduct (buildCategoryIndexByParent categories)
        (selectedKeysFor proposedCategories choices) p)) = [])
    (hunres : unresolvedAfterCreationFor parsedData categories proposedCategories choices
      store0.nextId ≠ []) :
    (handleImportModel businessId parsedData categories proposedCategories choices
        store0).outcome
      = ImportOutcome.abortedUnresolvedAfterCreation
          (unresolvedAfterCreationFor parsedData categories proposedCategories choices
            store0.nextId)
    ∧ ∀ op ∈ (handleImportModel businessId parsedData categories proposedCategories choices
        store0).ops, writesProductOrVariant op = false := by
  have hrun : handleImportModel businessId parsedData categories proposedCategories choices
      store0
      = { outcome := ImportOutcome.abortedUnresolvedAfterCreation
            (unresolvedAfterCreationFor parsedData categories proposedCategories choices
              store0.nextId)
          ops := (runCategoryCreation (categoriesToCreateFor proposedCategories choices)
            (buildCategoryIndexByParent categories) store0.nextId).ops } := by
    simp only [handleImportModel]
    rw [if_neg (show ¬parsedData.isEmpty = true by simp [List.isEmpty_iff, hdata])]
    rw [if_neg (show ¬(productsToProcessFor parsedData).isEmpty = true by
      simp [List.isEmpty_iff, hsel])]
    rw [hplan]
    rw [if_neg (by simp)]
    rw [show List.filter (fun p => jsTrim p.category != "" && p.categoryId.getD "" == "")
        (productsReadyFor parsedData categories proposedCategories choices store0.nextId)
      = unresolvedAfterCreationFor parsedData categories proposedCategories choices
        store0.nextId from rfl]
    rw [if_pos (show (!(unresolvedAfterCreationFor parsedData categories proposedCategories
        choices store0.nextId).isEmpty) = true by simp [List.isEmpty_iff, hunres])]
  rw [hrun]
  exact ⟨rfl, runCategoryCreation_ops_category _ _ _⟩

theorem import_aborts_before_product_writes_witness :
    (handleImportModel "b" [{ productCode := "p", category := "A > B" }] []
        [mkProposal none [] "A", mkProposal none ["A"] "B"] (fun _ => true)
        { nextId := 0, variantDocs := [] }).outcome
      = ImportOutcome.abortedUnresolvedAfterCreation
          (unresolvedAfterCreationFor [{ productCode := "p", category := "A > B" }] []
            [mkProposal none [] "A", mkProposal none ["A"] "B"] (fun _ => true)
            ({ nextId := 0, variantDocs := [] } : ImportStore).nextId)
    ∧ ∀ op ∈ (handleImportModel "b" [{ productCode := "p", category := "A > B" }] []
        [mkProposal none [] "A", mkProposal none ["A"] "B"] (fun _ => true)
        { nextId := 0, variantDocs := [] }).ops, writesProductOrVariant op = false :=
  import_aborts_before_product_writes "b" [{ productCode := "p", category := "A > B" }] []
    [mkProposal none [] "A", mkProposal none ["A"] "B"] (fun _ => true)
    { nextId := 0, variantDocs := [] }
    (by decide) (by decide) (by decide) (by decide)

/-- The variant documents the creation tail inserts: one fresh doc per
draft, with consecutive fresh ids. -/
def freshVariantDocs (businessId productId : String) : Nat → List VariantDraft → List VariantDoc
  | _, [] => []
  | n, _ :: rest =>
    { id := freshId n, productId := productId, businessId := businessId }
      :: freshVariantDocs businessId productId (n + 1) rest

/-- The create operations the creation tail issues. -/
def freshVariantOps (businessId productId : String) : Nat → List VariantDraft → List DBOp
  | _, [] => []
  | n, _ :: rest =>
    DBOp.createVariantDoc (freshId n) productId businessId
      :: freshVariantOps businessId productId (n + 1) rest

theorem createVariantsFor_spec (businessId productId : String) :
    ∀ (drafts : List VariantDraft) (st : ImportStore),
      (createVariantsFor businessId productId st drafts).1.variantDocs
        = st.variantDocs ++ freshVariantDocs businessId productId st.nextId drafts
      ∧ (createVariantsFor businessId productId st drafts).1.nextId
          = st.nextId + drafts.length
      ∧ (createVariantsFor businessId productId st drafts).2
        = freshVariantOps businessId productId st.nextId drafts := by
  intro drafts
  induction drafts with
  | nil =>
    intro st
    refine ⟨by simp [createVariantsFor, freshVariantDocs], by simp [createVariantsFor], ?_⟩
    simp [createVariantsFor, freshVariantOps]
  | cons d rest ih =>
    intro st
    obtain ⟨h1, h2, h3⟩ := ih
      { nextId := st.nextId + 1
        variantDocs := st.variantDocs
          ++ [{ id := freshId st.nextId, productId := productId, businessId := businessId }] }
    rw [createVariantsFor]
    dsimp only
    refine ⟨?_, ?_, ?_⟩
    · rw [h1, freshVariantDocs]
      dsimp only
      rw [List.append_assoc, List.singleton_append]
    · rw [h2]
      dsimp only
      rw [List.length_cons]
      omega
    · rw [h3, freshVariantOps]

theorem freshVariantDocs_fields (businessId productId : String) :
    ∀ (drafts : List VariantDraft) (n : Nat) (v : VariantDoc),
      v ∈ freshVariantDocs businessId productId n drafts →
      v.productId = productId ∧ v.businessId = businessId := by
  intro drafts
  induction drafts with
  | nil => intro n v h; simp [freshVariantDocs] at h
  | cons d rest ih =>
    intro n v h
    rw [freshVariantDocs] at h
    rcases List.mem_cons.mp h with h | h
    · rw [h]
      exact ⟨rfl, rfl⟩
    · exact ih (n + 1) v h

theorem freshVariantOps_shape (businessId productId : String) :
    ∀ (drafts : List VariantDraft) (n : Nat) (op : DBOp),
      op ∈ freshVariantOps businessId productId n drafts →
      ∃ m, op = DBOp.createVariantDoc (freshId m) productId businessId := by
  intro drafts
  induction drafts with
  | nil => intro n op h; simp [freshVariantOps] at h
  | cons d rest ih =>
    intro n op h
    rw [freshVariantOps] at h
    rcases List.mem_cons.mp h with h | h
    · exact ⟨n, h⟩
    · exact ih (n + 1) op h

/-- C6 counterexample: the update path's variant cleanup lists the
stored variants scoped to the importing business, so a stored variant
of the same product under another business survives the supposed full
replace: importing product `p1` under business `b1` deletes `v1` but
leaves `v2` (business `b2`) in place and issues no delete for it. -/
theorem importProduct_delete_counterexample :
    DBOp.deleteVariantDoc "v2"
        ∉ (importProductModel "b1"
            { nextId := 0
              variantDocs := [{ id := "v1", productId := "p1", businessId := "b1" },
                { id := "v2", productId := "p1", businessId := "b2" }] }
            { productCode := "c", action := ImportAction.update,
              existingProductId := some "p1" }).2
    ∧ ({ id := "v2", productId := "p1", businessId := "b2" } : VariantDoc)
        ∈ (importProductModel "b1"
            { nextId := 0
              variantDocs := [{ id := "v1", productId := "p1", businessId := "b1" },
                { id := "v2", productId := "p1", businessId := "b2" }] }
            { productCode := "c", action := ImportAction.update,
              existingProductId := some "p1" }).1.variantDocs := by
  decide

/-- C6 (amended): for a product with action `update` and an existing
product id, provided every stored variant of that product belongs to
the importing business, there are at most 200 of them, and stored ids
are unique, the write for that product updates the existing document
first, never creates a product document, issues exactly one delete per
stored variant of the product, and afterwards the product's variants
are exactly one fresh document per draft while other products'
variants are untouched; products with action `skip` are filtered out
of the write phase entirely.  Without the business hypothesis the
claim fails (see the counterexample): variants of the product stored
under another business are not deleted. -/
theorem importProduct_update_semantics
    (businessId : String) (store : ImportStore) (product : ParsedProduct) (pid : String)
    (hact : product.action = ImportAction.update)
    (hid : product.existingProductId = some pid)
    (hpid : pid ≠ "")
    (hall : ∀ v ∈ store.variantDocs, v.productId = pid → v.businessId = businessId)
    (hcount : (store.variantDocs.filter (fun v => v.productId == pid)).length ≤ 200)
    (hnodup : (store.variantDocs.map (fun v => v.id)).Nodup) :
    ((importProductModel businessId store product).2.filter isVariantDelete
        = (store.variantDocs.filter (fun v => v.productId == pid)).map
            (fun v => DBOp.deleteVariantDoc v.id))
    ∧ ((importProductModel businessId store product).2.head?
        = some (DBOp.updateProductDoc pid))
    ∧ (∀ op ∈ (importProductModel businessId store product).2, isProductCreate op = false)
    ∧ ((importProductModel businessId store product).1.variantDocs.filter
          (fun v => v.productId == pid)
        = freshVariantDocs businessId pid store.nextId product.variants)
    ∧ ((importProductModel businessId store product).1.variantDocs.filter
          (fun v => !(v.productId == pid))
        = store.variantDocs.filter (fun v => !(v.productId == pid)))
    ∧ (∀ (parsedData : List ParsedProduct) (q : ParsedProduct),
        q.action = ImportAction.skip → q ∉ productsToProcessFor parsedData) := by
  have hcond : product.action = ImportAction.update
      ∧ product.existingProductId.getD "" ≠ "" := by
    refine ⟨hact, ?_⟩
    rw [hid]
    simpa using hpid
  have hfe : store.variantDocs.filter (fun v => v.productId == pid && v.businessId == businessId)
      = store.variantDocs.filter (fun v => v.productId == pid) := by
    apply List.filter_congr
    intro v hv
    by_cases hp : v.productId = pid
    · have hb := hall v hv hp
      simp [hp, hb]
    · simp [hp]
  have htake : (store.variantDocs.filter (fun v => v.productId == pid)).take 200
      = store.variantDocs.filter (fun v => v.productId == pid) :=
    List.take_of_length_le hcount
  have heq : importProductModel businessId store product
      = ((createVariantsFor businessId pid
            { nextId := store.nextId
              variantDocs := store.variantDocs.filter
                (fun v => !((store.variantDocs.filter (fun v => v.productId == pid)).map
                  (fun w => w.id)).contains v.id) } product.variants).1,
         DBOp.updateProductDoc pid
           :: ((if (store.variantDocs.filter (fun v => v.productId == pid)).isEmpty
                then [DBOp.listVariantDocs pid true, DBOp.listVariantDocs pid false]
                else [DBOp.listVariantDocs pid true])
             ++ (store.variantDocs.filter (fun v => v.productId == pid)).map
                  (fun v => DBOp.deleteVariantDoc v.id)
             ++ (createVariantsFor businessId pid
                  { nextId := store.nextId
                    variantDocs := store.variantDocs.filter
                      (fun v => !((store.variantDocs.filter (fun v => v.productId == pid)).map
                        (fun w => w.id)).contains v.id) } product.variants).2)) := by
    simp only [importProductModel]
    rw [if_pos hcond]
    simp only [hid, Option.getD_some]
    rw [hfe, htake, ite_self]
  obtain ⟨hdocs, hnext, hops⟩ := createVariantsFor_spec businessId pid product.variants
    { nextId := store.nextId
      variantDocs := store.variantDocs.filter
        (fun v => !((store.variantDocs.filter (fun v => v.productId == pid)).map
          (fun w => w.id)).contains v.id) }
  refine ⟨?_, ?_, ?_, ?_, ?_, ?_⟩
  · rw [heq]
    dsimp only
    rw [List.filter_cons]
    rw [if_neg (by simp [isVariantDelete])]
    rw [List.filter_append, List.filter_append]
    have hA : ((if (store.variantDocs.filter (fun v => v.productId == pid)).isEmpty
        then [DBOp.listVariantDocs pid true, DBOp.listVariantDocs pid false]
        else [DBOp.listVariantDocs pid true]) : List DBOp).filter isVariantDelete = [] := by
      by_cases h : (store.variantDocs.filter (fun v => v.productId == pid)).isEmpty = true
      · rw [if_pos h]
        simp [isVariantDelete]
      · rw [if_neg h]
        simp [isVariantDelete]
    have hB : ((store.variantDocs.filter (fun v => v.productId == pid)).map
        (fun v => DBOp.deleteVariantDoc v.id)).filter isVariantDelete
        = (store.variantDocs.filter (fun v => v.productId == pid)).map
            (fun v => DBOp.deleteVariantDoc v.id) := by
      apply List.filter_eq_self.mpr
      intro a ha
      obtain ⟨v, _, hva⟩ := List.mem_map.mp ha
      rw [← hva]
      rfl
    have hC : ((createVariantsFor businessId pid
        { nextId := store.nextId
          variantDocs := store.variantDocs.filter
            (fun v => !((store.variantDocs.filter (fun v => v.productId == pid)).map
              (fun w => w.id)).contains v.id) } product.variants).2).filter isVariantDelete
        = [] := by
      rw [hops]
      apply List.filter_eq_nil_iff.mpr
      intro a ha
      obtain ⟨m, hm⟩ := freshVariantOps_shape businessId pid product.variants _ a ha
      rw [hm]
      simp [isVariantDelete]
    rw [hA, hB, hC, List.nil_append, List.append_nil]
  · rw [heq]
    rfl
  · rw [heq]
    intro op hop
    rcases List.mem_cons.mp hop with h | h
    · rw [h]
      rfl
    · rcases List.mem_append.mp h with h | h
      · rcases List.mem_append.mp h with h | h
        · by_cases hc : (store.variantDocs.filter (fun v => v.productId == pid)).isEmpty = true
          · rw [if_pos hc] at h
            rcases List.mem_cons.mp h with h | h
            · rw [h]
              rfl
            · rw [List.mem_singleton.mp h]
              rfl
          · rw [if_neg hc] at h
            rw [List.mem_singleton.mp h]
            rfl
        · obtain ⟨v, _, hva⟩ := List.mem_map.mp h
          rw [← hva]
          rfl
      · rw [hops] at h
        obtain ⟨m, hm⟩ := freshVariantOps_shape businessId pid product.variants _ op h
        rw [hm]
        rfl
  · rw [heq]
    dsimp only
    rw [hdocs]
    dsimp only
    rw [List.filter_append]
    have hrem : (store.variantDocs.filter
        (fun v => !((store.variantDocs.filter (fun v => v.productId == pid)).map
          (fun w => w.id)).contains v.id)).filter (fun v => v.productId == pid) = [] := by
      apply List.filter_eq_nil_iff.mpr
      intro v hv
      obtain ⟨hvmem, hvpass⟩ := List.mem_filter.mp hv
      intro hbeq
      have hp : v.productId = pid := by simpa using hbeq
      have hvstored : v ∈ store.variantDocs.filter (fun v => v.productId == pid) :=
        List.mem_filter.mpr ⟨hvmem, by simp [hp]⟩
      have hvid : v.id ∈ (store.variantDocs.filter (fun v => v.productId == pid)).map
          (fun w => w.id) := List.mem_map.mpr ⟨v, hvstored, rfl⟩
      have : (((store.variantDocs.filter (fun v => v.productId == pid)).map
          (fun w => w.id)).contains v.id) = true := by
        simpa [List.contains_eq_any_beq, List.any_eq_true] using hvid
      rw [this] at hvpass
      simp at hvpass
    have hfr : (freshVariantDocs businessId pid store.nextId product.variants).filter
        (fun v => v.productId == pid)
        = freshVariantDocs businessId pid store.nextId product.variants := by
      apply List.filter_eq_self.mpr
      intro v hv
      have := (freshVariantDocs_fields businessId pid product.variants store.nextId v hv).1
      simp [this]
    rw [hrem, hfr, List.nil_append]
  · rw [heq]
    dsimp only
    rw [hdocs]
    dsimp only
    rw [List.filter_append]
    have hfr0 : (freshVariantDocs businessId pid store.nextId product.variants).filter
        (fun v => !(v.productId == pid)) = [] := by
      apply List.filter_eq_nil_iff.mpr
      intro v hv
      have := (freshVariantDocs_fields businessId pid product.variants store.nextId v hv).1
      simp [this]
    have hrem2 : (store.variantDocs.filter
        (fun v => !((store.variantDocs.filter (fun v => v.productId == pid)).map
          (fun w => w.id)).contains v.id)).filter (fun v => !(v.productId == pid))
        = store.variantDocs.filter (fun v => !(v.productId == pid)) := by
      rw [List.filter_filter]
      apply List.filter_congr
      intro v hv
      by_cases hp : v.productId = pid
      · simp [hp]
      · have hcontains : (((store.variantDocs.filter (fun v => v.productId == pid)).map
            (fun w => w.id)).contains v.id) = false := by
          by_cases hc : (((store.variantDocs.filter (fun v => v.productId == pid)).map
              (fun w => w.id)).contains v.id) = true
          · exfalso
            have hvid : v.id ∈ (store.variantDocs.filter (fun v => v.productId == pid)).map
                (fun w => w.id) := by
              simpa [List.contains_eq_any_beq, List.any_eq_true] using hc
            obtain ⟨w, hwstored, hwid⟩ := List.mem_map.mp hvid
            obtain ⟨hwmem, hwpass⟩ := List.mem_filter.mp hwstored
            have hwv : w = v := List.inj_on_of_nodup_map hnodup hwmem hv hwid
            have hwp : w.productId = pid := by simpa using hwpass
            exact hp (hwv ▸ hwp)
          · exact Bool.eq_false_iff.mpr (fun h => hc h)
        rw [hcontains]
        simp
    rw [hrem2, hfr0, List.append_nil]
  · intro parsedData q hskip hmem
    rw [productsToProcessFor] at hmem
    have hpass := (List.mem_filter.mp hmem).2
    rw [hskip] at hpass
    simp at hpass

theorem importProduct_update_semantics_witness :
    ((importProductModel "b1"
        { nextId := 5, variantDocs := [{ id := "v1", productId := "p1", businessId := "b1" }] }
        { productCode := "c", action := ImportAction.update, existingProductId := some "p1",
          variants := [{ size := "S", finish := "F", price := 0, sku := "k" }] }).2.filter
        isVariantDelete
      = (([{ id := "v1", productId := "p1", businessId := "b1" }] : List VariantDoc).filter
          (fun v => v.productId == "p1")).map (fun v => DBOp.deleteVariantDoc v.id))
    ∧ ((importProductModel "b1"
        { nextId := 5, variantDocs := [{ id := "v1", productId := "p1", businessId := "b1" }] }
        { productCode := "c", action := ImportAction.update, existingProductId := some "p1",
          variants := [{ size := "S", finish := "F", price := 0, sku := "k" }] }).2.head?
      = some (DBOp.updateProductDoc "p1"))
    ∧ (∀ op ∈ (importProductModel "b1"
        { nextId := 5, variantDocs := [{ id := "v1", productId := "p1", businessId := "b1" }] }
        { productCode := "c", action := ImportAction.update, existingProductId := some "p1",
          variants := [{ size := "S", finish := "F", price := 0, sku := "k" }] }).2,
        isProductCreate op = false)
    ∧ ((importProductModel "b1"
        { nextId := 5, variantDocs := [{ id := "v1", productId := "p1", businessId := "b1" }] }
        { productCode := "c", action := ImportAction.update, existingProductId := some "p1",
          variants := [{ size := "S", finish := "F", price := 0, sku := "k" }] }).1.variantDocs.filter
          (fun v => v.productId == "p1")
      = freshVariantDocs "b1" "p1" 5 [{ size := "S", finish := "F", price := 0, sku := "k" }])
    ∧ ((importProductModel "b1"
        { nextId := 5, variantDocs := [{ id := "v1", productId := "p1", businessId := "b1" }] }
        { productCode := "c", action := ImportAction.update, existingProductId := some "p1",
          variants := [{ size := "S", finish := "F", price := 0, sku := "k" }] }).1.variantDocs.filter
          (fun v => !(v.productId == "p1"))
      = ([{ id := "v1", productId := "p1", businessId := "b1" }] : List VariantDoc).filter
          (fun v => !(v.productId == "p1")))
    ∧ (∀ (parsedData : List ParsedProduct) (q : ParsedProduct),
        q.action = ImportAction.skip → q ∉ productsToProcessFor parsedData) :=
  importProduct_update_semantics "b1"
    { nextId := 5, variantDocs := [{ id := "v1", productId := "p1", businessId := "b1" }] }
    { productCode := "c", action := ImportAction.update, existingProductId := some "p1",
      variants := [{ size := "S", finish := "F", price := 0, sku := "k" }] }
    "p1" rfl rfl (by decide) (by decide) (by decide) (by decide)
